import Mathlib

/-!
# package-hell: the concurrent dependency crawler of `main.go`

A shallow embedding of `src/main.go`.

* Go maps (`map[string]V`) are association lists read with `mapGet` and written
  with `mapSet`; a missing key reads as the zero value (`goIndex`).
* Go's `int` is the 64-bit two's complement integer: values are `Int`, and the
  one addition of the program (`total += v`) is reduced with `wrapInt`.
* The goroutines running `makeApiCall` are a pool of tasks, each at a program
  point (`Pc`); `step` lets one task of the pool perform one atomic action
  (a critical section, the HTTP GET, one `wg.Add(1); go ...`, or the deferred
  `wg.Done()`), and `run` follows a schedule of such choices. The two
  statements of the loop body of `parseData` are one action: the goroutine
  they start is counted and in the pool from then on. The order in which
  `range` yields the dependency names is chosen by the schedule as well.
* The registry is a function from the requested name to the outcome of the
  GET; `log.Fatalln` is the flag `crashed`, after which nothing runs.
-/

namespace PackageHell

/-! ## Data model (main.go, lines 15-46) -/

/-- `Distribution` of main.go: field `Size` (json `unpackedSize`). -/
structure Distribution where
  Size : Int
deriving DecidableEq, Repr

/-- `Version` of main.go: `Dependencies map[string]string` and `Dist`. -/
structure Version where
  Dependencies : List (String × String)
  Dist : Distribution
deriving DecidableEq, Repr

/-- `Tags` of main.go: field `Latest`. -/
structure Tags where
  Latest : String
deriving DecidableEq, Repr

/-- `Package` of main.go: the fields read from the registry's response. -/
structure Package where
  Name : String
  Tags : Tags
  Versions : List (String × Version)
  Error : String
deriving DecidableEq, Repr

/-- Reading `m[k]` with the comma-ok form: `none` when the key is absent. -/
def mapGet {V : Type} : List (String × V) → String → Option V
  | [], _ => none
  | (k, v) :: m, x => if x = k then some v else mapGet m x

/-- The assignment `m[x] = v`: overwrite the entry of `x`, or add one. -/
def mapSet {V : Type} : List (String × V) → String → V → List (String × V)
  | [], x, v => [(x, v)]
  | (k, w) :: m, x, v => if x = k then (k, v) :: m else (k, w) :: mapSet m x v

/-- The keys a `range` over the map visits, each once. -/
def mapKeys {V : Type} (m : List (String × V)) : List String :=
  (m.map Prod.fst).dedup

/-- The zero value of `Version`: nil dependencies, size 0. -/
def Version.zero : Version := ⟨[], ⟨0⟩⟩

/-- Reading `m[k]` without comma-ok: the zero value when the key is absent. -/
def goIndex (m : List (String × Version)) (k : String) : Version :=
  (mapGet m k).getD Version.zero

/-- The `list` field of `PackageList`: package name to size. -/
abbrev PkgMap := List (String × Int)

/-- `latestVersionSize` of parseData (line 127). -/
def latestVersionSize (p : Package) : Int :=
  (goIndex p.Versions p.Tags.Latest).Dist.Size

/-- The keys of `externalDependencies` of parseData (line 128), which the loop
of line 134 ranges over. -/
def externalDependencies (p : Package) : List String :=
  mapKeys (goIndex p.Versions p.Tags.Latest).Dependencies

/-- `parseData` (lines 113-132) up to its loop. The argument is the outcome of
`json.Unmarshal`: `none` when it returns an error (`log.Fatalln`, result
`none`). Otherwise the result is the updated map and the names the loop of
line 134 ranges over: nothing changes and nothing is ranged over when the error
field is "Not found". -/
def parseData (data : Option Package) (list : PkgMap) : Option (PkgMap × List String) :=
  match data with
  | none => none
  | some p =>
    if p.Error = "Not found" then some (list, [])
    else some (mapSet list p.Name (latestVersionSize p), externalDependencies p)

/-! ## The registry and the goroutines (main.go, lines 48-138) -/

/-- The outcome of the GET of `makeApiCall` for a requested name: `none` when
`http.Get` or `io.ReadAll` returns an error, `some none` when the body is not
deserializable, `some (some p)` when `json.Unmarshal` yields `p`. -/
abbrev Registry := String → Option (Option Package)

/-- Program points of a goroutine running `makeApiCall`. -/
inductive Pc where
  /-- Line 83: about to test `pkgList.list[packageName]` under the lock. -/
  | check (packageName : String)
  /-- Line 90: the test found the name absent; about to issue the GET. -/
  | fetch (packageName : String)
  /-- Line 102: the body was read; about to run `parseData` on it. -/
  | parse (data : Option Package)
  /-- Line 134: in the loop of `parseData`, with these names still to be
  visited. With no name left both functions return and the deferred
  `wg.Done()` is next; the early returns of lines 87 and 122 come here too. -/
  | loop (rest : List String)
deriving DecidableEq, Repr

/-- The shared state of one traversal. -/
structure State where
  /-- The map `pkgList.list`. -/
  list : PkgMap
  /-- The counter of the global `wg`. -/
  wg : Nat
  /-- The goroutines running `makeApiCall` that have not finished. -/
  tasks : List Pc
  /-- The names for which a GET was issued, in order. -/
  fetches : List String
  /-- Set by `log.Fatalln` (and by the panic of a negative counter). -/
  crashed : Bool
deriving DecidableEq, Repr

/-- What the scheduler decides at a step: which goroutine of the pool runs, and
(for a goroutine in the loop of line 134) which remaining key the `range`
yields next. -/
structure Choice where
  task : Nat
  pick : Nat
deriving DecidableEq, Repr

/-- Take the element at a position out of a list. -/
def pickAt {α : Type} : List α → Nat → Option (α × List α)
  | [], _ => none
  | a :: l, 0 => some (a, l)
  | a :: l, n + 1 => (pickAt l n).map (fun q => (q.1, a :: q.2))

/-- One atomic action of a goroutine running `makeApiCall` (lines 80-103, with
`parseData` inlined at line 102). `t` is the program point of the goroutine,
`others` the rest of the pool, `s` the state before. -/
def makeApiCall (reg : Registry) (s : State) (t : Pc) (others : List Pc) (pick : Nat) :
    Option State :=
  match t with
  | .check packageName =>
    -- lines 83-88
    match mapGet s.list packageName with
    | some _ => some { s with tasks := .loop [] :: others }
    | none => some { s with tasks := .fetch packageName :: others }
  | .fetch packageName =>
    -- lines 90-100
    match reg packageName with
    | none => some { s with fetches := s.fetches ++ [packageName], crashed := true }
    | some data =>
      some { s with fetches := s.fetches ++ [packageName], tasks := .parse data :: others }
  | .parse data =>
    -- lines 113-132
    match parseData data s.list with
    | none => some { s with crashed := true }
    | some (list, deps) => some { s with list := list, tasks := .loop deps :: others }
  | .loop [] =>
    -- the deferred wg.Done() of line 81
    if s.wg = 0 then some { s with crashed := true }
    else some { s with wg := s.wg - 1, tasks := others }
  | .loop (d :: ds) =>
    -- lines 134-137: wg.Add(1); go makeApiCall(externalPkg, pkgList)
    match pickAt (d :: ds) pick with
    | none => none
    | some (externalPkg, rest) =>
      some { s with wg := s.wg + 1, tasks := .check externalPkg :: .loop rest :: others }

/-- One step of the program: the chosen goroutine performs its next action.
`none` when the choice names no goroutine, or the process has exited. -/
def step (reg : Registry) (s : State) (c : Choice) : Option State :=
  if s.crashed then none
  else
    match pickAt s.tasks c.task with
    | none => none
    | some (t, others) => makeApiCall reg s t others c.pick

/-- Follow a schedule from a state. -/
def run (reg : Registry) : State → List Choice → Option State
  | s, [] => some s
  | s, c :: cs =>
    match step reg s c with
    | none => none
    | some s' => run reg s' cs

/-- The state `main` is in after lines 64-69: a fresh empty map, `wg.Add(1)`,
and the goroutine `makeApiCall(input, pkgList)` started. -/
def main (input : String) : State :=
  { list := [], wg := 1, tasks := [.check input], fetches := [], crashed := false }

/-- The `wg.Wait()` of line 71 returns in this state. -/
def waitReturns (s : State) : Bool :=
  s.wg == 0 && !s.crashed

/-! ## The report (main.go, lines 140-153) -/

/-- Go's `int` on a 64-bit platform: reduce into `[-2^63, 2^63)`. -/
def wrapInt (x : Int) : Int :=
  (x + 2 ^ 63) % 2 ^ 64 - 2 ^ 63

/-- The calls of `fmt` made by `calculateTotalPkgSize`: the empty `Println`,
the heading, the `Printf` of one entry, and the `Printf` of line 151, which
prints the value of `total` carried here converted to megabytes. -/
inductive Line where
  | blank
  | header
  | entry (k : String) (v : Int)
  | total (bytes : Int)
deriving DecidableEq, Repr

/-- The loop of lines 145-148 over the entries in the order `range` yields
them: the lines printed and the running total. -/
def sumLoop : List (String × Int) → List Line → Int → List Line × Int
  | [], out, total => (out, total)
  | (k, v) :: m, out, total => sumLoop m (out ++ [.entry k v]) (wrapInt (total + v))

/-- `calculateTotalPkgSize` (lines 140-153): the lines printed and the value of
`total` at line 151, for the entries in the order `range` yields them. -/
def calculateTotalPkgSize (order : List (String × Int)) : List Line × Int :=
  let r := sumLoop order [.blank, .header] 0
  (r.1 ++ [.blank, .total r.2, .blank], r.2)

/-- The lines of a report printed by line 146. -/
def entryLines (out : List Line) : List Line :=
  out.filter (fun l => match l with | .entry _ _ => true | _ => false)

/-! ## Notions used to state the properties -/

/-- The response for a name is a record that is not marked "Not found". -/
def Found (reg : Registry) (x : String) (p : Package) : Prop :=
  reg x = some (some p) ∧ p.Error ≠ "Not found"

/-- The names reachable from the root through the dependency names of the
latest version of each found package. -/
inductive Reach (reg : Registry) (root : String) : String → Prop
  | root : Reach reg root root
  | dep (x : String) (p : Package) (d : String) :
      Reach reg root x → Found reg x p → d ∈ externalDependencies p → Reach reg root d

/-- Every found record reachable from the root carries the name it was
requested under. -/
def Agrees (reg : Registry) (root : String) : Prop :=
  ∀ x p, Reach reg root x → Found reg x p → p.Name = x

/-- The names reachable from the root all occur in the list `U`. -/
def Within (reg : Registry) (root : String) (U : List String) : Prop :=
  ∀ x, Reach reg root x → x ∈ U

/-- A state in which no goroutine is left. -/
def Finished (s : State) : Prop :=
  s.tasks = []

/-- The steps of `step`, up to the position of the goroutine in the pool. -/
inductive Step (reg : Registry) (s : State) : State → Prop
  | checkHit (x : String) (v : Int) (others : List Pc) :
      s.tasks.Perm (.check x :: others) → mapGet s.list x = some v →
      Step reg s { s with tasks := .loop [] :: others }
  | checkMiss (x : String) (others : List Pc) :
      s.tasks.Perm (.check x :: others) → mapGet s.list x = none →
      Step reg s { s with tasks := .fetch x :: others }
  | fetchFail (x : String) (others : List Pc) :
      s.tasks.Perm (.fetch x :: others) → reg x = none →
      Step reg s { s with fetches := s.fetches ++ [x], crashed := true }
  | fetchOk (x : String) (data : Option Package) (others : List Pc) :
      s.tasks.Perm (.fetch x :: others) → reg x = some data →
      Step reg s { s with fetches := s.fetches ++ [x], tasks := .parse data :: others }
  | parseFail (data : Option Package) (others : List Pc) :
      s.tasks.Perm (.parse data :: others) → parseData data s.list = none →
      Step reg s { s with crashed := true }
  | parseOk (data : Option Package) (list : PkgMap) (deps : List String) (others : List Pc) :
      s.tasks.Perm (.parse data :: others) → parseData data s.list = some (list, deps) →
      Step reg s { s with list := list, tasks := .loop deps :: others }
  | doneCrash (others : List Pc) :
      s.tasks.Perm (.loop [] :: others) → s.wg = 0 →
      Step reg s { s with crashed := true }
  | done (others : List Pc) :
      s.tasks.Perm (.loop [] :: others) → s.wg ≠ 0 →
      Step reg s { s with wg := s.wg - 1, tasks := others }
  | spawn (ds : List String) (d : String) (rest : List String) (others : List Pc) :
      s.tasks.Perm (.loop ds :: others) → ds.Perm (d :: rest) →
      Step reg s { s with wg := s.wg + 1, tasks := .check d :: .loop rest :: others }

/-! ## Invariants of the traversal -/

/-- What a goroutine at a program point works on is reachable from the root. -/
def TaskOk (reg : Registry) (root : String) : Pc → Prop
  | .check x => Reach reg root x
  | .fetch x => Reach reg root x
  | .parse data => ∃ x, Reach reg root x ∧ reg x = some data
  | .loop rest => ∀ d ∈ rest, Reach reg root d

/-- The goroutine at this program point will deal with the name `d`. -/
def Handles (reg : Registry) (d : String) : Pc → Prop
  | .check x => x = d
  | .fetch x => x = d
  | .parse data => reg d = some data
  | .loop rest => d ∈ rest

/-- Some goroutine of the pool will deal with the name. -/
def Pending (reg : Registry) (s : State) (d : String) : Prop :=
  ∃ t ∈ s.tasks, Handles reg d t

/-- The name is recorded, or answered "Not found", or some goroutine will deal
with it. -/
def Settled (reg : Registry) (s : State) (d : String) : Prop :=
  mapGet s.list d ≠ none ∨ (∃ p, reg d = some (some p) ∧ p.Error = "Not found") ∨
    Pending reg s d

/-- The invariant of the traversal from a root. -/
structure Inv (reg : Registry) (root : String) (s : State) : Prop where
  tasks : ∀ t ∈ s.tasks, TaskOk reg root t
  sound : ∀ k v, mapGet s.list k = some v →
    Reach reg root k ∧ ∃ p, Found reg k p ∧ v = latestVersionSize p
  rootSettled : Settled reg s root
  closed : ∀ k p d, mapGet s.list k ≠ none → Found reg k p → d ∈ externalDependencies p →
    Settled reg s d

/-! ## The measure of termination -/

/-- A bound on the steps one goroutine at line 83 and all the goroutines it
goes on to start can take, when `m` names are not yet recorded and a package
has at most `D` dependency names. -/
def bound (D : Nat) : Nat → Nat
  | 0 => 2
  | m + 1 => D * (1 + bound D m) + 4

/-- The number of names of `U` that the map does not record. -/
def unrecorded (U : List String) (list : PkgMap) : Nat :=
  (U.toFinset.filter (fun x => mapGet list x = none)).card

/-- Steps left for a goroutine in the loop of line 134: each remaining name
costs the spawn and what the spawned goroutine does, then `wg.Done()`. -/
def loopWeight (D m : Nat) (rest : List String) : Nat :=
  rest.length * (1 + bound D m) + 1

/-- Steps left for a goroutine about to run `parseData`. -/
def parseWeight (U : List String) (list : PkgMap) (data : Option Package) : Nat :=
  match parseData data list with
  | none => 1
  | some (list', deps) => 1 + loopWeight U.length (unrecorded U list') deps

/-- Steps left for a goroutine and the goroutines it goes on to start. -/
def weight (reg : Registry) (U : List String) (list : PkgMap) : Pc → Nat
  | .check _ => bound U.length (unrecorded U list)
  | .fetch x =>
    match reg x with
    | none => 1
    | some data => 1 + parseWeight U list data
  | .parse data => parseWeight U list data
  | .loop rest => loopWeight U.length (unrecorded U list) rest

/-- Steps left for the whole pool; nothing once the process has exited. -/
def potential (reg : Registry) (U : List String) (s : State) : Nat :=
  if s.crashed then 0 else (s.tasks.map (weight reg U s.list)).sum

/-! ## Which names are fetched -/

/-- The goroutine at this program point has the GET for `d` still ahead of it,
unless it finds `d` recorded. -/
def Waits (d : String) : Pc → Prop
  | .check x => x = d
  | .fetch x => x = d
  | .parse _ => False
  | .loop rest => d ∈ rest

/-- A GET for the name was issued, or a goroutine has it ahead. -/
def Covered (s : State) (d : String) : Prop :=
  d ∈ s.fetches ∨ ∃ t ∈ s.tasks, Waits d t

/-- The invariant relating the log of GETs to the map and the pool. -/
structure FetchInv (reg : Registry) (root : String) (s : State) : Prop where
  reach : ∀ x ∈ s.fetches, Reach reg root x
  parsed : ∀ data, Pc.parse data ∈ s.tasks →
    ∃ x, x ∈ s.fetches ∧ Reach reg root x ∧ reg x = some data
  recorded : ∀ k, mapGet s.list k ≠ none → k ∈ s.fetches
  rootCovered : Covered s root
  closed : ∀ k p d, mapGet s.list k ≠ none → Found reg k p → d ∈ externalDependencies p →
    Covered s d

/-! ## A cycle of two packages -/

/-- The goroutine at this program point is between its test of the map and the
write of line 131 for the name `x`: it is about to issue the GET for `x`, or it
holds an answer that `parseData` is about to record under the name `x`. A
goroutine holding an answer marked "Not found" records nothing and is in flight
for no name. -/
def inFlight (x : String) : Pc → Bool
  | .fetch y => decide (y = x)
  | .parse (some p) => decide (p.Error ≠ "Not found") && decide (p.Name = x)
  | _ => false

/-- The step does not let a goroutine find a name absent while another
goroutine is in flight for the same name. -/
def unraced (s : State) (c : Choice) : Bool :=
  match pickAt s.tasks c.task with
  | some (.check x, others) =>
    (mapGet s.list x).isSome || others.all (fun t => !inFlight x t)
  | _ => true

/-- Every step of the schedule is `unraced`. -/
def unracedRun (reg : Registry) : State → List Choice → Bool
  | _, [] => true
  | s, c :: cs =>
    unraced s c &&
      match step reg s c with
      | none => true
      | some s' => unracedRun reg s' cs

/-- At most one GET per found name is issued or about to be, and a name with a
GET issued is recorded or has its answer about to be parsed. -/
def OnceInv (reg : Registry) (root : String) (s : State) : Prop :=
  ∀ x p, Reach reg root x → Found reg x p →
    s.fetches.count x + s.tasks.count (.fetch x) ≤ 1 ∧
    (1 ≤ s.fetches.count x →
      mapGet s.list x ≠ none ∨ ∃ data, Pc.parse data ∈ s.tasks ∧ reg x = some data)

/-! ## Concrete registries and schedules -/

/-- A record with one version, tagged latest, of the given size and with the
given dependency names. -/
def pkg (name : String) (size : Int) (deps : List String) : Package :=
  ⟨name, ⟨"1.0.0"⟩, [("1.0.0", ⟨deps.map (fun d => (d, "*")), ⟨size⟩⟩)], ""⟩

/-- The response of the registry for a package that does not exist. -/
def notFound : Package :=
  ⟨"", ⟨""⟩, [], "Not found"⟩

/-- The registry of the scenario: "app" (2048 bytes) depends on "lib" (4096
bytes). -/
def regAppLib : Registry := fun x =>
  if x = "app" then some (some (pkg "app" 2048 ["lib"]))
  else if x = "lib" then some (some (pkg "lib" 4096 []))
  else some (some notFound)

/-- A diamond: "a" depends on "b" and "c", which both depend on "d". -/
def regDiamond : Registry := fun x =>
  if x = "a" then some (some (pkg "a" 1 ["b", "c"]))
  else if x = "b" then some (some (pkg "b" 2 ["d"]))
  else if x = "c" then some (some (pkg "c" 3 ["d"]))
  else if x = "d" then some (some (pkg "d" 4 []))
  else some (some notFound)

/-- A schedule on the diamond in which the goroutines started for "d" by "b"
and by "c" both test the map before either records "d". -/
def diamondRace : List Choice :=
  [⟨0, 0⟩, ⟨0, 0⟩, ⟨0, 0⟩, ⟨0, 0⟩, ⟨1, 0⟩,   -- "a" recorded, "b" and "c" started
   ⟨2, 0⟩, ⟨0, 0⟩, ⟨0, 0⟩, ⟨0, 0⟩,           -- "b" recorded, its "d" started
   ⟨2, 0⟩, ⟨0, 0⟩, ⟨0, 0⟩, ⟨0, 0⟩,           -- "c" recorded, its "d" started
   ⟨0, 0⟩, ⟨2, 0⟩,                           -- both test "d": absent
   ⟨0, 0⟩, ⟨1, 0⟩]                           -- both issue the GET

/-- The rest of the racing schedule: both answers are parsed and every
goroutine returns. -/
def diamondRaceEnd : List Choice :=
  [⟨0, 0⟩, ⟨1, 0⟩, ⟨0, 0⟩, ⟨0, 0⟩, ⟨0, 0⟩, ⟨0, 0⟩, ⟨0, 0⟩]

/-- The cycle "A" depends on "B", "B" depends on "A". -/
def regCycle : Registry := fun x =>
  if x = "A" then some (some (pkg "A" 10 ["B"]))
  else if x = "B" then some (some (pkg "B" 20 ["A"]))
  else some (some notFound)

/-- A registry that answers every request with the record named "b", whose
latest version depends on "a". -/
def regAlias : Registry := fun _ =>
  some (some (pkg "b" 0 ["a"]))

/-- Two packages of 2^62 bytes each. -/
def regHuge : Registry := fun x =>
  if x = "a" then some (some (pkg "a" (2 ^ 62) ["b"]))
  else if x = "b" then some (some (pkg "b" (2 ^ 62) []))
  else some (some notFound)

/-- "A" depends on "B" and "C", and neither exists. -/
def regBothMissing : Registry := fun x =>
  if x = "A" then some (some (pkg "A" 10 ["B", "C"]))
  else some (some notFound)

/-- A schedule on `regBothMissing` in which "C" is tested, and found absent,
while the answer for "B" is waiting to be parsed. -/
def overlapMissing : List Choice :=
  [⟨0, 0⟩, ⟨0, 0⟩, ⟨0, 0⟩, ⟨0, 0⟩, ⟨1, 0⟩,   -- "A" recorded, "B" and "C" started
   ⟨2, 0⟩, ⟨0, 0⟩,                           -- the answer for "B" is read
   ⟨1, 0⟩, ⟨0, 0⟩,                           -- "C" is tested and fetched
   ⟨0, 0⟩, ⟨0, 0⟩, ⟨0, 0⟩, ⟨0, 0⟩, ⟨0, 0⟩]   -- both answers parsed, all return

/-- "A" depends on "B" and "X", "B" depends on "X", and "X" does not exist. -/
def regMissingTwice : Registry := fun x =>
  if x = "A" then some (some (pkg "A" 10 ["B", "X"]))
  else if x = "B" then some (some (pkg "B" 20 ["X"]))
  else some (some notFound)

/-- A response with two versions, the later one tagged latest. -/
def pkgTwoVersions : Package :=
  ⟨"b", ⟨"2.0.0"⟩, [("1.0.0", ⟨[], ⟨3⟩⟩), ("2.0.0", ⟨[("a", "*")], ⟨7⟩⟩)], ""⟩

/-- A check that `U` is closed under the dependency names of its found
packages, and that every name of `U` is answered by a record that is marked
"Not found" or carries the requested name. -/
def wellBehaved (reg : Registry) (U : List String) : Bool :=
  U.all fun x =>
    match reg x with
    | some (some p) =>
      decide (p.Error = "Not found") ||
        (decide (p.Name = x) && (externalDependencies p).all (fun d => decide (d ∈ U)))
    | _ => false

/-! ## The registry that answers under another name -/

/-- A goroutine that will go on to request "a" again. -/
def AliasLive (t : Pc) : Prop :=
  t = .check "a" ∨ t = .fetch "a" ∨ t = .parse (some (pkg "b" 0 ["a"])) ∨ t = .loop ["a"]

/-- The states of the traversal of `regAlias` from "a": "a" is never recorded
and some goroutine is always about to request it. -/
def AliasInv (s : State) : Prop :=
  s.crashed = false ∧ s.wg = s.tasks.length ∧ mapGet s.list "a" = none ∧
    (∀ t ∈ s.tasks, t = .loop [] ∨ AliasLive t) ∧ ∃ t ∈ s.tasks, AliasLive t

/-! ## Basic lemmas -/

theorem pickAt_perm {α : Type} : ∀ (l : List α) (n : Nat) (a : α) (r : List α),
    pickAt l n = some (a, r) → l.Perm (a :: r)
  | [], _, _, _, h => by simp [pickAt] at h
  | b :: l, 0, a, r, h => by
      simp only [pickAt, Option.some.injEq, Prod.mk.injEq] at h
      obtain ⟨rfl, rfl⟩ := h
      exact List.Perm.refl _
  | b :: l, n + 1, a, r, h => by
      simp only [pickAt, Option.map_eq_some'] at h
      obtain ⟨⟨a', r'⟩, hq, he⟩ := h
      simp only [Prod.mk.injEq] at he
      obtain ⟨rfl, rfl⟩ := he
      have ih := pickAt_perm l n a' r' hq
      exact (List.Perm.cons b ih).trans (List.Perm.swap a' b r')

theorem pickAt_zero {α : Type} (a : α) (l : List α) : pickAt (a :: l) 0 = some (a, l) := rfl

theorem mapGet_mapSet {V : Type} (m : List (String × V)) (x : String) (v : V) (y : String) :
    mapGet (mapSet m x v) y = if y = x then some v else mapGet m y := by
  induction m with
  | nil => simp [mapSet, mapGet]
  | cons e m ih =>
    obtain ⟨k, w⟩ := e
    by_cases hxk : x = k
    · subst hxk
      by_cases hy : y = x <;> simp [mapSet, mapGet, hy]
    · by_cases hy : y = x
      · subst hy
        simp [mapSet, mapGet, hxk, ih]
      · by_cases hyk : y = k
        · subst hyk
          simp [mapSet, mapGet, hxk, hy]
        · simp [mapSet, mapGet, hxk, hy, hyk, ih]

theorem mapGet_mapSet_self {V : Type} (m : List (String × V)) (x : String) (v : V) :
    mapGet (mapSet m x v) x = some v := by
  simp [mapGet_mapSet]

theorem mapGet_mapSet_ne {V : Type} (m : List (String × V)) (x : String) (v : V) (y : String)
    (h : y ≠ x) : mapGet (mapSet m x v) y = mapGet m y := by
  simp [mapGet_mapSet, h]

theorem parseData_notFound (p : Package) (list : PkgMap) (h : p.Error = "Not found") :
    parseData (some p) list = some (list, []) := by
  simp [parseData, h]

theorem parseData_found (p : Package) (list : PkgMap) (h : p.Error ≠ "Not found") :
    parseData (some p) list =
      some (mapSet list p.Name (latestVersionSize p), externalDependencies p) := by
  simp [parseData, h]

/-- Every step of `step` is a `Step` from a state that has not exited. -/
theorem step_sound (reg : Registry) (s s' : State) (c : Choice)
    (h : step reg s c = some s') : s.crashed = false ∧ Step reg s s' := by
  unfold step at h
  by_cases hc : s.crashed = true
  · simp [hc] at h
  · simp only [hc] at h
    have hc' : s.crashed = false := by simpa using hc
    refine ⟨hc', ?_⟩
    cases hp : pickAt s.tasks c.task with
    | none => simp [hp] at h
    | some q =>
      obtain ⟨t, others⟩ := q
      have hperm := pickAt_perm _ _ _ _ hp
      simp only [hp, if_false, Bool.false_eq_true] at h
      cases t with
      | check x =>
        cases hg : mapGet s.list x with
        | none =>
          simp only [makeApiCall, hg, Option.some.injEq] at h
          subst h
          exact Step.checkMiss x others hperm hg
        | some v =>
          simp only [makeApiCall, hg, Option.some.injEq] at h
          subst h
          exact Step.checkHit x v others hperm hg
      | fetch x =>
        cases hr : reg x with
        | none =>
          simp only [makeApiCall, hr, Option.some.injEq] at h
          subst h
          exact Step.fetchFail x others hperm hr
        | some data =>
          simp only [makeApiCall, hr, Option.some.injEq] at h
          subst h
          exact Step.fetchOk x data others hperm hr
      | parse data =>
        cases hd : parseData data s.list with
        | none =>
          simp only [makeApiCall, hd, Option.some.injEq] at h
          subst h
          exact Step.parseFail data others hperm hd
        | some q =>
          obtain ⟨list, deps⟩ := q
          simp only [makeApiCall, hd, Option.some.injEq] at h
          subst h
          exact Step.parseOk data list deps others hperm hd
      | loop rest =>
        cases rest with
        | nil =>
          by_cases hw : s.wg = 0
          · simp only [makeApiCall] at h
            rw [if_pos hw] at h
            simp only [Option.some.injEq] at h
            subst h
            exact Step.doneCrash others hperm hw
          · simp only [makeApiCall] at h
            rw [if_neg hw] at h
            simp only [Option.some.injEq] at h
            subst h
            exact Step.done others hperm hw
        | cons d ds =>
          cases hq : pickAt (d :: ds) c.pick with
          | none => simp [makeApiCall, hq] at h
          | some q =>
            obtain ⟨e, rest⟩ := q
            simp only [makeApiCall, hq, Option.some.injEq] at h
            subst h
            exact Step.spawn (d :: ds) e rest others hperm (pickAt_perm _ _ _ _ hq)

/-- A state that has not exited and has a goroutine left can step. -/
theorem step_progress (reg : Registry) (s : State) (hc : s.crashed = false)
    (ht : s.tasks ≠ []) : ∃ s', step reg s ⟨0, 0⟩ = some s' := by
  cases hts : s.tasks with
  | nil => exact absurd hts ht
  | cons t others =>
    unfold step
    simp only [hc, hts, pickAt_zero, Bool.false_eq_true, if_false]
    cases t with
    | check x =>
      cases hg : mapGet s.list x <;> simp [makeApiCall, hg]
    | fetch x =>
      cases hr : reg x <;> simp [makeApiCall, hr]
    | parse data =>
      cases hd : parseData data s.list <;> simp [makeApiCall, hd]
    | loop rest =>
      cases rest with
      | nil => by_cases hw : s.wg = 0 <;> simp [makeApiCall, hw]
      | cons d ds => simp [makeApiCall, pickAt_zero]

/-! ## Invariants along a schedule -/

/-- Invariants kept along a schedule are kept by `run`. -/
theorem run_invariant (reg : Registry) (P : State → Prop)
    (hstep : ∀ s s', P s → s.crashed = false → Step reg s s' → P s') :
    ∀ (sched : List Choice) (s s' : State), P s → run reg s sched = some s' → P s'
  | [], s, s', hP, h => by
      simp only [run, Option.some.injEq] at h
      exact h ▸ hP
  | c :: cs, s, s', hP, h => by
      simp only [run] at h
      cases hs : step reg s c with
      | none => simp [hs] at h
      | some s1 =>
        simp only [hs] at h
        obtain ⟨hc, hst⟩ := step_sound reg s s1 c hs
        exact run_invariant reg P hstep cs s1 s' (hstep s s1 hP hc hst) h

/-- The counter of `wg` is the number of goroutines in the pool. -/
theorem counter_step (reg : Registry) (s s' : State) (h : s.wg = s.tasks.length)
    (hs : Step reg s s') : s'.wg = s'.tasks.length := by
  cases hs with
  | checkHit x v others hp hg => simpa [hp.length_eq] using h
  | checkMiss x others hp hg => simpa [hp.length_eq] using h
  | fetchFail x others hp hr => simpa using h
  | fetchOk x data others hp hr => simpa [hp.length_eq] using h
  | parseFail data others hp hd => simpa using h
  | parseOk data list deps others hp hd => simpa [hp.length_eq] using h
  | doneCrash others hp hw => simpa using h
  | done others hp hw =>
    have := hp.length_eq
    simp only [List.length_cons] at this
    simp only
    omega
  | spawn ds d rest others hp hq =>
    have := hp.length_eq
    simp only [List.length_cons] at this ⊢
    omega

theorem counter_run (reg : Registry) (sched : List Choice) (s s' : State)
    (h : s.wg = s.tasks.length) (hr : run reg s sched = some s') :
    s'.wg = s'.tasks.length :=
  run_invariant reg (fun s => s.wg = s.tasks.length)
    (fun s s' hP _ hs => counter_step reg s s' hP hs) sched s s' h hr

theorem inv_main (reg : Registry) (root : String) : Inv reg root (main root) where
  tasks := by
    intro t ht
    simp only [main, List.mem_singleton] at ht
    subst ht
    exact Reach.root
  sound := by
    intro k v h
    simp [main, mapGet] at h
  rootSettled := Or.inr (Or.inr ⟨.check root, by simp [main], rfl⟩)
  closed := by
    intro k p d h
    simp [main, mapGet] at h

theorem settled_mono (reg : Registry) (root : String) (s s' : State) (d : String)
    (hk : ∀ k, mapGet s.list k ≠ none → mapGet s'.list k ≠ none)
    (hp : ∀ d, Reach reg root d → Pending reg s d → Settled reg s' d)
    (hr : Reach reg root d) (h : Settled reg s d) : Settled reg s' d := by
  rcases h with h | h | h
  · exact Or.inl (hk d h)
  · exact Or.inr (Or.inl h)
  · exact hp d hr h

/-- Rebuild the invariant after a step that keeps the map, from what happens to
the goroutine that ran. -/
theorem inv_of_tasks (reg : Registry) (root : String) (s s' : State) (t : Pc)
    (others : List Pc) (hi : Inv reg root s) (hperm : s.tasks.Perm (t :: others))
    (hl : s'.list = s.list)
    (hsub : ∀ u ∈ others, u ∈ s'.tasks)
    (hok : ∀ u ∈ s'.tasks, u ∈ others ∨ TaskOk reg root u)
    (hh : ∀ d, Reach reg root d → Handles reg d t → Settled reg s' d) :
    Inv reg root s' := by
  have hpend : ∀ d, Reach reg root d → Pending reg s d → Settled reg s' d := by
    intro d hd ⟨u, hu, hud⟩
    rcases List.mem_cons.1 (hperm.mem_iff.1 hu) with rfl | hu'
    · exact hh d hd hud
    · exact Or.inr (Or.inr ⟨u, hsub u hu', hud⟩)
  have hk : ∀ k, mapGet s.list k ≠ none → mapGet s'.list k ≠ none := by
    intro k hk
    rwa [hl]
  refine ⟨?_, ?_, ?_, ?_⟩
  · intro u hu
    rcases hok u hu with h | h
    · exact hi.tasks u (hperm.mem_iff.2 (List.mem_cons_of_mem _ h))
    · exact h
  · intro k v hkv
    rw [hl] at hkv
    exact hi.sound k v hkv
  · exact settled_mono reg root s s' root hk hpend Reach.root hi.rootSettled
  · intro k p d hkn hf hd
    rw [hl] at hkn
    have hrk : Reach reg root k := by
      cases hg : mapGet s.list k with
      | none => exact absurd hg hkn
      | some v => exact (hi.sound k v hg).1
    exact settled_mono reg root s s' d hk hpend (Reach.dep k p d hrk hf hd)
      (hi.closed k p d hkn hf hd)

theorem inv_step (reg : Registry) (root : String) (hA : Agrees reg root) (s s' : State)
    (hi : Inv reg root s) (hs : Step reg s s') : Inv reg root s' := by
  cases hs with
  | checkHit x v others hp hg =>
    refine inv_of_tasks reg root s _ (.check x) others hi hp rfl ?_ ?_ ?_
    · intro u hu
      exact List.mem_cons_of_mem _ hu
    · intro u hu
      rcases List.mem_cons.1 hu with rfl | hu
      · exact Or.inr (by intro d hd; simp at hd)
      · exact Or.inl hu
    · intro d _ hd
      simp only [Handles] at hd
      subst hd
      exact Or.inl (by simp [hg])
  | checkMiss x others hp hg =>
    have hx : TaskOk reg root (.check x) :=
      hi.tasks _ (hp.mem_iff.2 (List.mem_cons_self _ _))
    refine inv_of_tasks reg root s _ (.check x) others hi hp rfl ?_ ?_ ?_
    · intro u hu
      exact List.mem_cons_of_mem _ hu
    · intro u hu
      rcases List.mem_cons.1 hu with rfl | hu
      · exact Or.inr hx
      · exact Or.inl hu
    · intro d _ hd
      simp only [Handles] at hd
      subst hd
      exact Or.inr (Or.inr ⟨.fetch x, List.mem_cons_self _ _, rfl⟩)
  | fetchFail x others hp hr =>
    refine inv_of_tasks reg root s _ (.fetch x) others hi hp rfl ?_ ?_ ?_
    · intro u hu
      exact hp.mem_iff.2 (List.mem_cons_of_mem _ hu)
    · intro u hu
      rcases List.mem_cons.1 (hp.mem_iff.1 hu) with rfl | hu
      · exact Or.inr (hi.tasks _ (hp.mem_iff.2 (List.mem_cons_self _ _)))
      · exact Or.inl hu
    · intro d _ hd
      exact Or.inr (Or.inr ⟨.fetch x, hp.mem_iff.2 (List.mem_cons_self _ _), hd⟩)
  | fetchOk x data others hp hr =>
    have hx : TaskOk reg root (.fetch x) :=
      hi.tasks _ (hp.mem_iff.2 (List.mem_cons_self _ _))
    refine inv_of_tasks reg root s _ (.fetch x) others hi hp rfl ?_ ?_ ?_
    · intro u hu
      exact List.mem_cons_of_mem _ hu
    · intro u hu
      rcases List.mem_cons.1 hu with rfl | hu
      · exact Or.inr ⟨x, hx, hr⟩
      · exact Or.inl hu
    · intro d _ hd
      simp only [Handles] at hd
      subst hd
      exact Or.inr (Or.inr ⟨.parse data, List.mem_cons_self _ _, hr⟩)
  | parseFail data others hp hd =>
    refine inv_of_tasks reg root s _ (.parse data) others hi hp rfl ?_ ?_ ?_
    · intro u hu
      exact hp.mem_iff.2 (List.mem_cons_of_mem _ hu)
    · intro u hu
      rcases List.mem_cons.1 (hp.mem_iff.1 hu) with rfl | hu
      · exact Or.inr (hi.tasks _ (hp.mem_iff.2 (List.mem_cons_self _ _)))
      · exact Or.inl hu
    · intro d _ hd'
      exact Or.inr (Or.inr ⟨.parse data, hp.mem_iff.2 (List.mem_cons_self _ _), hd'⟩)
  | parseOk data list deps others hp hd =>
    obtain ⟨x, hx, hrx⟩ : TaskOk reg root (.parse data) :=
      hi.tasks _ (hp.mem_iff.2 (List.mem_cons_self _ _))
    cases data with
    | none => simp [parseData] at hd
    | some p =>
      by_cases hnf : p.Error = "Not found"
      · rw [parseData_notFound p s.list hnf] at hd
        simp only [Option.some.injEq, Prod.mk.injEq] at hd
        obtain ⟨rfl, rfl⟩ := hd
        refine inv_of_tasks reg root s _ (.parse (some p)) others hi hp rfl ?_ ?_ ?_
        · intro u hu
          exact List.mem_cons_of_mem _ hu
        · intro u hu
          rcases List.mem_cons.1 hu with rfl | hu
          · exact Or.inr (by intro d hd; simp at hd)
          · exact Or.inl hu
        · intro d _ hd'
          exact Or.inr (Or.inl ⟨p, hd', hnf⟩)
      · rw [parseData_found p s.list hnf] at hd
        simp only [Option.some.injEq, Prod.mk.injEq] at hd
        obtain ⟨rfl, rfl⟩ := hd
        have hf : Found reg x p := ⟨hrx, hnf⟩
        have hname : p.Name = x := hA x p hx hf
        have hk : ∀ k, mapGet s.list k ≠ none →
            mapGet (mapSet s.list p.Name (latestVersionSize p)) k ≠ none := by
          intro k hk
          rw [mapGet_mapSet]
          by_cases hkx : k = p.Name <;> simp [hkx, hk]
        have hpend : ∀ d, Reach reg root d → Pending reg s d →
            Settled reg { s with list := mapSet s.list p.Name (latestVersionSize p),
                                 tasks := .loop (externalDependencies p) :: others } d := by
          intro d hd ⟨u, hu, hud⟩
          rcases List.mem_cons.1 (hp.mem_iff.1 hu) with rfl | hu'
          · simp only [Handles] at hud
            have hfd : Found reg d p := ⟨hud, hnf⟩
            have : p.Name = d := hA d p hd hfd
            exact Or.inl (by simp [← this, mapGet_mapSet])
          · exact Or.inr (Or.inr ⟨u, List.mem_cons_of_mem _ hu', hud⟩)
        refine ⟨?_, ?_, ?_, ?_⟩
        · intro u hu
          rcases List.mem_cons.1 hu with rfl | hu
          · intro d hd
            exact Reach.dep x p d hx hf hd
          · exact hi.tasks u (hp.mem_iff.2 (List.mem_cons_of_mem _ hu))
        · intro k v hkv
          simp only [mapGet_mapSet] at hkv
          by_cases hkx : k = p.Name
          · simp only [hkx, if_true, Option.some.injEq] at hkv
            subst hkv
            rw [hkx, hname]
            exact ⟨hx, p, hf, rfl⟩
          · simp only [hkx, if_false] at hkv
            exact hi.sound k v hkv
        · exact settled_mono reg root s _ root hk hpend Reach.root hi.rootSettled
        · intro k q d hkn hfq hd
          simp only [mapGet_mapSet] at hkn
          by_cases hkx : k = p.Name
          · have hq : q = p := by
              have h1 := hfq.1
              rw [hkx, hname, hrx] at h1
              simpa using h1.symm
            subst hq
            exact Or.inr (Or.inr ⟨.loop (externalDependencies q), List.mem_cons_self _ _, hd⟩)
          · simp only [hkx, if_false] at hkn
            have hrk : Reach reg root k := by
              cases hg : mapGet s.list k with
              | none => exact absurd hg hkn
              | some v => exact (hi.sound k v hg).1
            exact settled_mono reg root s _ d hk hpend (Reach.dep k q d hrk hfq hd)
              (hi.closed k q d hkn hfq hd)
  | doneCrash others hp hw =>
    refine inv_of_tasks reg root s _ (.loop []) others hi hp rfl ?_ ?_ ?_
    · intro u hu
      exact hp.mem_iff.2 (List.mem_cons_of_mem _ hu)
    · intro u hu
      rcases List.mem_cons.1 (hp.mem_iff.1 hu) with rfl | hu
      · exact Or.inr (by intro d hd; simp at hd)
      · exact Or.inl hu
    · intro d _ hd
      simp [Handles] at hd
  | done others hp hw =>
    refine inv_of_tasks reg root s _ (.loop []) others hi hp rfl ?_ ?_ ?_
    · intro u hu
      exact hu
    · intro u hu
      exact Or.inl hu
    · intro d _ hd
      simp [Handles] at hd
  | spawn ds d rest others hp hq =>
    have hx : TaskOk reg root (.loop ds) :=
      hi.tasks _ (hp.mem_iff.2 (List.mem_cons_self _ _))
    refine inv_of_tasks reg root s _ (.loop ds) others hi hp rfl ?_ ?_ ?_
    · intro u hu
      exact List.mem_cons_of_mem _ (List.mem_cons_of_mem _ hu)
    · intro u hu
      rcases List.mem_cons.1 hu with rfl | hu
      · exact Or.inr (hx d (hq.mem_iff.2 (List.mem_cons_self _ _)))
      · rcases List.mem_cons.1 hu with rfl | hu
        · exact Or.inr (fun e he => hx e (hq.mem_iff.2 (List.mem_cons_of_mem _ he)))
        · exact Or.inl hu
    · intro e _ he
      simp only [Handles] at he
      rcases List.mem_cons.1 (hq.mem_iff.1 he) with rfl | he'
      · exact Or.inr (Or.inr ⟨.check e, List.mem_cons_self _ _, rfl⟩)
      · exact Or.inr (Or.inr ⟨.loop rest, List.mem_cons_of_mem _ (List.mem_cons_self _ _), he'⟩)

theorem inv_run (reg : Registry) (root : String) (hA : Agrees reg root)
    (sched : List Choice) (s' : State) (hr : run reg (main root) sched = some s') :
    Inv reg root s' :=
  run_invariant reg (Inv reg root) (fun s s' hP _ hs => inv_step reg root hA s s' hP hs)
    sched (main root) s' (inv_main reg root) hr

/-- In a state with no goroutine left, every reachable name is recorded or was
answered "Not found". -/
theorem finished_covers (reg : Registry) (root : String) (s : State)
    (hi : Inv reg root s) (hf : Finished s) (x : String) (hx : Reach reg root x) :
    mapGet s.list x ≠ none ∨ ∃ p, reg x = some (some p) ∧ p.Error = "Not found" := by
  have hnp : ∀ d, ¬ Pending reg s d := by
    intro d ⟨t, ht, _⟩
    rw [hf] at ht
    simp at ht
  induction hx with
  | root =>
    rcases hi.rootSettled with h | h | h
    · exact Or.inl h
    · exact Or.inr h
    · exact absurd h (hnp _)
  | dep x p d _ hfx hd ih =>
    have hk : mapGet s.list x ≠ none := by
      rcases ih with h | ⟨q, hq, hnf⟩
      · exact h
      · have h1 := hfx.1
        rw [hq] at h1
        simp only [Option.some.injEq] at h1
        subst h1
        exact absurd hnf hfx.2
    rcases hi.closed x p d hk hfx hd with h | h | h
    · exact Or.inl h
    · exact Or.inr h
    · exact absurd h (hnp _)

theorem bound_ge_two (D : Nat) : ∀ m, 2 ≤ bound D m
  | 0 => by simp [bound]
  | m + 1 => by simp only [bound]; omega

theorem bound_succ_le (D : Nat) (m : Nat) : bound D m ≤ bound D (m + 1) := by
  induction m with
  | zero => simp only [bound]; omega
  | succ m ih =>
    simp only [bound] at ih ⊢
    have := Nat.mul_le_mul_left D (Nat.add_le_add_left ih 1)
    simp only [bound] at this
    omega

theorem bound_mono (D : Nat) {m n : Nat} (h : m ≤ n) : bound D m ≤ bound D n := by
  induction h with
  | refl => exact Nat.le_refl _
  | step _ ih => exact Nat.le_trans ih (bound_succ_le D _)

theorem unrecorded_le (U : List String) (list : PkgMap) : unrecorded U list ≤ U.length :=
  Nat.le_trans (Finset.card_filter_le _ _) (List.toFinset_card_le U)

theorem unrecorded_mono (U : List String) (l l' : PkgMap)
    (h : ∀ k, mapGet l k ≠ none → mapGet l' k ≠ none) : unrecorded U l' ≤ unrecorded U l := by
  apply Finset.card_le_card
  intro x hx
  simp only [Finset.mem_filter, List.mem_toFinset] at hx ⊢
  refine ⟨hx.1, ?_⟩
  by_contra hne
  exact h x hne hx.2

theorem unrecorded_mapSet_lt (U : List String) (l : PkgMap) (x : String) (v : Int)
    (hx : x ∈ U) (hg : mapGet l x = none) : unrecorded U (mapSet l x v) < unrecorded U l := by
  apply Finset.card_lt_card
  rw [Finset.ssubset_iff_of_subset]
  · exact ⟨x, by simp [hx, hg], by simp [mapGet_mapSet]⟩
  · intro y hy
    simp only [Finset.mem_filter, List.mem_toFinset, mapGet_mapSet] at hy ⊢
    refine ⟨hy.1, ?_⟩
    by_cases hyx : y = x
    · simp [hyx] at hy
    · simpa [hyx] using hy.2

theorem loopWeight_mono (D : Nat) {m n : Nat} (h : m ≤ n) (rest : List String) :
    loopWeight D m rest ≤ loopWeight D n rest := by
  unfold loopWeight
  have := Nat.mul_le_mul_left rest.length (Nat.add_le_add_left (bound_mono D h) 1)
  omega

theorem parseWeight_mono (U : List String) (l l' : PkgMap)
    (h : ∀ k, mapGet l k ≠ none → mapGet l' k ≠ none) (data : Option Package) :
    parseWeight U l' data ≤ parseWeight U l data := by
  cases data with
  | none => simp [parseWeight, parseData]
  | some p =>
    by_cases hnf : p.Error = "Not found"
    · simp only [parseWeight, parseData_notFound p _ hnf]
      exact Nat.add_le_add_left (loopWeight_mono _ (unrecorded_mono U l l' h) _) 1
    · simp only [parseWeight, parseData_found p _ hnf]
      refine Nat.add_le_add_left (loopWeight_mono _ (unrecorded_mono U _ _ ?_) _) 1
      intro k hk
      rw [mapGet_mapSet] at hk ⊢
      by_cases hkx : k = p.Name
      · simp [hkx]
      · simp only [hkx, if_false] at hk ⊢
        exact h k hk

theorem weight_mono (reg : Registry) (U : List String) (l l' : PkgMap)
    (h : ∀ k, mapGet l k ≠ none → mapGet l' k ≠ none) (t : Pc) :
    weight reg U l' t ≤ weight reg U l t := by
  cases t with
  | check x => exact bound_mono _ (unrecorded_mono U l l' h)
  | fetch x =>
    simp only [weight]
    cases reg x with
    | none => exact Nat.le_refl _
    | some data => exact Nat.add_le_add_left (parseWeight_mono U l l' h data) 1
  | parse data => exact parseWeight_mono U l l' h data
  | loop rest => exact loopWeight_mono _ (unrecorded_mono U l l' h) _

theorem weight_pos (reg : Registry) (U : List String) (l : PkgMap) (t : Pc) :
    1 ≤ weight reg U l t := by
  cases t with
  | check x =>
    have := bound_ge_two U.length (unrecorded U l)
    simp only [weight]
    omega
  | fetch x =>
    simp only [weight]
    cases reg x with
    | none => exact Nat.le_refl _
    | some data => exact Nat.le_add_right 1 _
  | parse data =>
    simp only [weight, parseWeight]
    cases parseData data l with
    | none => exact Nat.le_refl _
    | some q => simp only; omega
  | loop rest => simp only [weight, loopWeight]; omega

theorem sum_weight_mono (reg : Registry) (U : List String) (l l' : PkgMap)
    (h : ∀ k, mapGet l k ≠ none → mapGet l' k ≠ none) (ts : List Pc) :
    (ts.map (weight reg U l')).sum ≤ (ts.map (weight reg U l)).sum := by
  induction ts with
  | nil => simp
  | cons t ts ih =>
    simp only [List.map_cons, List.sum_cons]
    exact Nat.add_le_add (weight_mono reg U l l' h t) ih

theorem sum_weight_perm (reg : Registry) (U : List String) (l : PkgMap) (ts others : List Pc)
    (t : Pc) (hp : ts.Perm (t :: others)) :
    (ts.map (weight reg U l)).sum = weight reg U l t + (others.map (weight reg U l)).sum := by
  rw [(hp.map (weight reg U l)).sum_eq]
  simp

theorem externalDependencies_length_le (reg : Registry) (root : String) (U : List String)
    (hW : Within reg root U) (x : String) (p : Package) (hx : Reach reg root x)
    (hf : Found reg x p) : (externalDependencies p).length ≤ U.length := by
  have hnd : (externalDependencies p).Nodup := List.nodup_dedup _
  have hsub : (externalDependencies p).toFinset ⊆ U.toFinset := by
    intro d hd
    simp only [List.mem_toFinset] at hd ⊢
    exact hW d (Reach.dep x p d hx hf hd)
  calc (externalDependencies p).length
      = (externalDependencies p).toFinset.card := (List.toFinset_card_of_nodup hnd).symm
    _ ≤ U.toFinset.card := Finset.card_le_card hsub
    _ ≤ U.length := List.toFinset_card_le U

/-- A goroutine whose test found the name absent has less left to do than the
bound for a goroutine at the test. -/
theorem weight_fetch_lt (reg : Registry) (root : String) (U : List String)
    (hA : Agrees reg root) (hW : Within reg root U) (l : PkgMap) (x : String)
    (hx : Reach reg root x) (hg : mapGet l x = none) :
    weight reg U l (.fetch x) < bound U.length (unrecorded U l) := by
  have hxU : x ∈ U := hW x hx
  have hpos : 0 < unrecorded U l := by
    apply Finset.card_pos.2
    exact ⟨x, by simp [hxU, hg]⟩
  obtain ⟨m, hm⟩ : ∃ m, unrecorded U l = m + 1 := ⟨unrecorded U l - 1, by omega⟩
  rw [hm]
  simp only [weight, bound]
  cases hr : reg x with
  | none => simp only; omega
  | some data =>
    cases data with
    | none => simp only [parseWeight, parseData]; omega
    | some p =>
      by_cases hnf : p.Error = "Not found"
      · simp only [parseWeight, parseData_notFound p _ hnf, loopWeight, List.length_nil]
        omega
      · have hf : Found reg x p := ⟨hr, hnf⟩
        have hname : p.Name = x := hA x p hx hf
        have hlen := externalDependencies_length_le reg root U hW x p hx hf
        have hlt := unrecorded_mapSet_lt U l x (latestVersionSize p) hxU hg
        have hle : unrecorded U (mapSet l x (latestVersionSize p)) ≤ m := by omega
        have hb := bound_mono U.length hle
        simp only [parseWeight, parseData_found p _ hnf, loopWeight, hname]
        have h1 : (externalDependencies p).length *
            (1 + bound U.length (unrecorded U (mapSet l x (latestVersionSize p)))) ≤
            U.length * (1 + bound U.length m) :=
          Nat.mul_le_mul hlen (Nat.add_le_add_left hb 1)
        omega

/-- Every step lowers the potential. -/
theorem potential_step (reg : Registry) (root : String) (U : List String)
    (hA : Agrees reg root) (hW : Within reg root U) (s s' : State)
    (hi : Inv reg root s) (hc : s.crashed = false) (hs : Step reg s s') :
    potential reg U s' < potential reg U s := by
  have hpos : ∀ (t : Pc) (others : List Pc), s.tasks.Perm (t :: others) →
      0 < potential reg U s := by
    intro t others hp
    simp only [potential, hc, Bool.false_eq_true, if_false]
    rw [sum_weight_perm reg U s.list s.tasks others t hp]
    have := weight_pos reg U s.list t
    omega
  cases hs with
  | checkHit x v others hp hg =>
    simp only [potential, hc, Bool.false_eq_true, if_false, List.map_cons, List.sum_cons]
    rw [sum_weight_perm reg U s.list s.tasks others _ hp]
    have := bound_ge_two U.length (unrecorded U s.list)
    simp only [weight, loopWeight, List.length_nil]
    omega
  | checkMiss x others hp hg =>
    have hx : TaskOk reg root (.check x) :=
      hi.tasks _ (hp.mem_iff.2 (List.mem_cons_self _ _))
    simp only [potential, hc, Bool.false_eq_true, if_false, List.map_cons, List.sum_cons]
    rw [sum_weight_perm reg U s.list s.tasks others _ hp]
    have := weight_fetch_lt reg root U hA hW s.list x hx hg
    simp only [weight] at this ⊢
    omega
  | fetchFail x others hp hr =>
    have := hpos _ _ hp
    simpa [potential] using this
  | fetchOk x data others hp hr =>
    simp only [potential, hc, Bool.false_eq_true, if_false, List.map_cons, List.sum_cons]
    rw [sum_weight_perm reg U s.list s.tasks others _ hp]
    simp only [weight, hr]
    omega
  | parseFail data others hp hd =>
    have := hpos _ _ hp
    simpa [potential] using this
  | parseOk data list deps others hp hd =>
    simp only [potential, hc, Bool.false_eq_true, if_false, List.map_cons, List.sum_cons]
    rw [sum_weight_perm reg U s.list s.tasks others _ hp]
    have hk : ∀ k, mapGet s.list k ≠ none → mapGet list k ≠ none := by
      intro k hk
      cases data with
      | none => simp [parseData] at hd
      | some p =>
        by_cases hnf : p.Error = "Not found"
        · rw [parseData_notFound p s.list hnf] at hd
          simp only [Option.some.injEq, Prod.mk.injEq] at hd
          rw [← hd.1]
          exact hk
        · rw [parseData_found p s.list hnf] at hd
          simp only [Option.some.injEq, Prod.mk.injEq] at hd
          rw [← hd.1, mapGet_mapSet]
          by_cases hkx : k = p.Name <;> simp [hkx, hk]
    have hrest := sum_weight_mono reg U s.list list hk others
    simp only [weight, parseWeight, hd]
    omega
  | doneCrash others hp hw =>
    have := hpos _ _ hp
    simpa [potential] using this
  | done others hp hw =>
    simp only [potential, hc, Bool.false_eq_true, if_false]
    rw [sum_weight_perm reg U s.list s.tasks others _ hp]
    have := weight_pos reg U s.list (.loop [])
    omega
  | spawn ds d rest others hp hq =>
    simp only [potential, hc, Bool.false_eq_true, if_false, List.map_cons, List.sum_cons]
    rw [sum_weight_perm reg U s.list s.tasks others _ hp]
    have hl := hq.length_eq
    simp only [List.length_cons] at hl
    simp only [weight, loopWeight, hl]
    generalize bound U.length (unrecorded U s.list) = b
    have : (rest.length + 1) * (1 + b) = rest.length * (1 + b) + (1 + b) := by ring
    omega

/-- A schedule is no longer than the potential it uses up. -/
theorem run_length_le (reg : Registry) (root : String) (U : List String)
    (hA : Agrees reg root) (hW : Within reg root U) :
    ∀ (sched : List Choice) (s s' : State), Inv reg root s → run reg s sched = some s' →
      sched.length + potential reg U s' ≤ potential reg U s
  | [], s, s', _, h => by
      simp only [run, Option.some.injEq] at h
      subst h
      simp
  | c :: cs, s, s', hi, h => by
      simp only [run] at h
      cases hs : step reg s c with
      | none => simp [hs] at h
      | some s1 =>
        simp only [hs] at h
        obtain ⟨hc, hst⟩ := step_sound reg s s1 c hs
        have ih := run_length_le reg root U hA hW cs s1 s' (inv_step reg root hA s s1 hi hst) h
        have := potential_step reg root U hA hW s s1 hi hc hst
        simp only [List.length_cons]
        omega

theorem potential_main_le (reg : Registry) (U : List String) (root : String) :
    potential reg U (main root) ≤ bound U.length U.length := by
  simp only [potential, main, Bool.false_eq_true, if_false, List.map_cons, List.map_nil,
    List.sum_cons, List.sum_nil, weight, Nat.add_zero]
  exact bound_mono _ (unrecorded_le U [])

/-- From every state of the traversal some schedule leads to a state where the
process has exited or no goroutine is left. -/
theorem exists_complete (reg : Registry) (root : String) (U : List String)
    (hA : Agrees reg root) (hW : Within reg root U) :
    ∀ (n : Nat) (s : State), Inv reg root s → potential reg U s ≤ n →
      ∃ sched s', run reg s sched = some s' ∧ (s'.crashed = true ∨ s'.tasks = [])
  | n, s, hi, hn => by
      by_cases hc : s.crashed = true
      · exact ⟨[], s, rfl, Or.inl hc⟩
      · by_cases ht : s.tasks = []
        · exact ⟨[], s, rfl, Or.inr ht⟩
        · have hc' : s.crashed = false := by simpa using hc
          obtain ⟨s1, hs1⟩ := step_progress reg s hc' ht
          obtain ⟨_, hst⟩ := step_sound reg s s1 _ hs1
          have hlt := potential_step reg root U hA hW s s1 hi hc' hst
          cases n with
          | zero => omega
          | succ n =>
            obtain ⟨sched, s', hr, hfin⟩ := exists_complete reg root U hA hW n s1
              (inv_step reg root hA s s1 hi hst) (by omega)
            exact ⟨⟨0, 0⟩ :: sched, s', by simp [run, hs1, hr], hfin⟩

/-! ## The log of GETs -/

theorem fetchInv_main (reg : Registry) (root : String) : FetchInv reg root (main root) where
  reach := by
    intro x hx
    simp [main] at hx
  parsed := by
    intro data h
    simp [main] at h
  recorded := by
    intro k h
    simp [main, mapGet] at h
  rootCovered := Or.inr ⟨.check root, by simp [main], rfl⟩
  closed := by
    intro k p d h
    simp [main, mapGet] at h

/-- Rebuild the invariant after a step that keeps the map and only adds to the
log, from what happens to the goroutine that ran. -/
theorem fetchInv_of_tasks (reg : Registry) (root : String) (s s' : State) (t : Pc)
    (others : List Pc) (hi : FetchInv reg root s) (hperm : s.tasks.Perm (t :: others))
    (hl : s'.list = s.list)
    (hf : ∀ x, x ∈ s'.fetches → x ∈ s.fetches ∨ Reach reg root x)
    (hf' : ∀ x, x ∈ s.fetches → x ∈ s'.fetches)
    (hsub : ∀ u ∈ others, u ∈ s'.tasks)
    (hok : ∀ data, Pc.parse data ∈ s'.tasks → Pc.parse data ∈ s.tasks ∨
      ∃ x, x ∈ s'.fetches ∧ Reach reg root x ∧ reg x = some data)
    (hh : ∀ d, Waits d t → Covered s' d) :
    FetchInv reg root s' := by
  have hcov : ∀ d, Covered s d → Covered s' d := by
    intro d hd
    rcases hd with hd | ⟨u, hu, hud⟩
    · exact Or.inl (hf' d hd)
    · rcases List.mem_cons.1 (hperm.mem_iff.1 hu) with rfl | hu'
      · exact hh d hud
      · exact Or.inr ⟨u, hsub u hu', hud⟩
  refine ⟨?_, ?_, ?_, ?_, ?_⟩
  · intro x hx
    rcases hf x hx with h | h
    · exact hi.reach x h
    · exact h
  · intro data hd
    rcases hok data hd with h | h
    · obtain ⟨x, hx, hr, hreg⟩ := hi.parsed data h
      exact ⟨x, hf' x hx, hr, hreg⟩
    · exact h
  · intro k hk
    rw [hl] at hk
    exact hf' k (hi.recorded k hk)
  · exact hcov root hi.rootCovered
  · intro k p d hk hfk hd
    rw [hl] at hk
    exact hcov d (hi.closed k p d hk hfk hd)

theorem fetchInv_step (reg : Registry) (root : String) (hA : Agrees reg root) (s s' : State)
    (hv : Inv reg root s) (hi : FetchInv reg root s) (hs : Step reg s s') :
    FetchInv reg root s' := by
  cases hs with
  | checkHit x v others hp hg =>
    refine fetchInv_of_tasks reg root s _ (.check x) others hi hp rfl
      (fun x hx => Or.inl hx) (fun x hx => hx) (fun u hu => List.mem_cons_of_mem _ hu) ?_ ?_
    · intro data hd
      rcases List.mem_cons.1 hd with h | h
      · cases h
      · exact Or.inl (hp.mem_iff.2 (List.mem_cons_of_mem _ h))
    · intro d hd
      simp only [Waits] at hd
      subst hd
      exact Or.inl (hi.recorded x (by simp [hg]))
  | checkMiss x others hp hg =>
    refine fetchInv_of_tasks reg root s _ (.check x) others hi hp rfl
      (fun x hx => Or.inl hx) (fun x hx => hx) (fun u hu => List.mem_cons_of_mem _ hu) ?_ ?_
    · intro data hd
      rcases List.mem_cons.1 hd with h | h
      · cases h
      · exact Or.inl (hp.mem_iff.2 (List.mem_cons_of_mem _ h))
    · intro d hd
      simp only [Waits] at hd
      subst hd
      exact Or.inr ⟨.fetch x, List.mem_cons_self _ _, rfl⟩
  | fetchFail x others hp hr =>
    have hx : TaskOk reg root (.fetch x) :=
      hv.tasks _ (hp.mem_iff.2 (List.mem_cons_self _ _))
    refine fetchInv_of_tasks reg root s _ (.fetch x) others hi hp rfl ?_ ?_
      (fun u hu => hp.mem_iff.2 (List.mem_cons_of_mem _ hu)) (fun data hd => Or.inl hd) ?_
    · intro y hy
      rcases List.mem_append.1 hy with h | h
      · exact Or.inl h
      · simp only [List.mem_singleton] at h
        subst h
        exact Or.inr hx
    · intro y hy
      exact List.mem_append_left _ hy
    · intro d hd
      simp only [Waits] at hd
      subst hd
      exact Or.inl (by simp)
  | fetchOk x data others hp hr =>
    have hx : TaskOk reg root (.fetch x) :=
      hv.tasks _ (hp.mem_iff.2 (List.mem_cons_self _ _))
    refine fetchInv_of_tasks reg root s _ (.fetch x) others hi hp rfl ?_ ?_
      (fun u hu => List.mem_cons_of_mem _ hu) ?_ ?_
    · intro y hy
      rcases List.mem_append.1 hy with h | h
      · exact Or.inl h
      · simp only [List.mem_singleton] at h
        subst h
        exact Or.inr hx
    · intro y hy
      exact List.mem_append_left _ hy
    · intro data' hd
      rcases List.mem_cons.1 hd with h | h
      · cases h
        exact Or.inr ⟨x, by simp, hx, hr⟩
      · exact Or.inl (hp.mem_iff.2 (List.mem_cons_of_mem _ h))
    · intro d hd
      simp only [Waits] at hd
      subst hd
      exact Or.inl (by simp)
  | parseFail data others hp hd =>
    refine fetchInv_of_tasks reg root s _ (.parse data) others hi hp rfl
      (fun x hx => Or.inl hx) (fun x hx => hx)
      (fun u hu => hp.mem_iff.2 (List.mem_cons_of_mem _ hu)) (fun data hd => Or.inl hd) ?_
    intro d hd'
    simp [Waits] at hd'
  | parseOk data list deps others hp hd =>
    obtain ⟨x, hxf, hx, hrx⟩ := hi.parsed data (hp.mem_iff.2 (List.mem_cons_self _ _))
    cases data with
    | none => simp [parseData] at hd
    | some p =>
      by_cases hnf : p.Error = "Not found"
      · rw [parseData_notFound p s.list hnf] at hd
        simp only [Option.some.injEq, Prod.mk.injEq] at hd
        obtain ⟨rfl, rfl⟩ := hd
        refine fetchInv_of_tasks reg root s _ (.parse (some p)) others hi hp rfl
          (fun x hx => Or.inl hx) (fun x hx => hx) (fun u hu => List.mem_cons_of_mem _ hu)
          ?_ ?_
        · intro data hd
          rcases List.mem_cons.1 hd with h | h
          · cases h
          · exact Or.inl (hp.mem_iff.2 (List.mem_cons_of_mem _ h))
        · intro d hd'
          simp [Waits] at hd'
      · rw [parseData_found p s.list hnf] at hd
        simp only [Option.some.injEq, Prod.mk.injEq] at hd
        obtain ⟨rfl, rfl⟩ := hd
        have hf : Found reg x p := ⟨hrx, hnf⟩
        have hname : p.Name = x := hA x p hx hf
        have hcov : ∀ d, Covered s d →
            Covered { s with list := mapSet s.list p.Name (latestVersionSize p),
                             tasks := .loop (externalDependencies p) :: others } d := by
          intro d hd
          rcases hd with hd | ⟨u, hu, hud⟩
          · exact Or.inl hd
          · rcases List.mem_cons.1 (hp.mem_iff.1 hu) with rfl | hu'
            · simp [Waits] at hud
            · exact Or.inr ⟨u, List.mem_cons_of_mem _ hu', hud⟩
        refine ⟨hi.reach, ?_, ?_, hcov root hi.rootCovered, ?_⟩
        · intro data hd
          rcases List.mem_cons.1 hd with h | h
          · cases h
          · exact hi.parsed data (hp.mem_iff.2 (List.mem_cons_of_mem _ h))
        · intro k hk
          simp only [mapGet_mapSet] at hk
          by_cases hkx : k = p.Name
          · rw [hkx, hname]
            exact hxf
          · simp only [hkx, if_false] at hk
            exact hi.recorded k hk
        · intro k q d hkn hfq hd
          simp only [mapGet_mapSet] at hkn
          by_cases hkx : k = p.Name
          · have hq : q = p := by
              have h1 := hfq.1
              rw [hkx, hname, hrx] at h1
              simpa using h1.symm
            subst hq
            exact Or.inr ⟨.loop (externalDependencies q), List.mem_cons_self _ _, hd⟩
          · simp only [hkx, if_false] at hkn
            exact hcov d (hi.closed k q d hkn hfq hd)
  | doneCrash others hp hw =>
    refine fetchInv_of_tasks reg root s _ (.loop []) others hi hp rfl
      (fun x hx => Or.inl hx) (fun x hx => hx)
      (fun u hu => hp.mem_iff.2 (List.mem_cons_of_mem _ hu)) (fun data hd => Or.inl hd) ?_
    intro d hd
    simp [Waits] at hd
  | done others hp hw =>
    refine fetchInv_of_tasks reg root s _ (.loop []) others hi hp rfl
      (fun x hx => Or.inl hx) (fun x hx => hx) (fun u hu => hu)
      (fun data hd => Or.inl (hp.mem_iff.2 (List.mem_cons_of_mem _ hd))) ?_
    intro d hd
    simp [Waits] at hd
  | spawn ds d rest others hp hq =>
    refine fetchInv_of_tasks reg root s _ (.loop ds) others hi hp rfl
      (fun x hx => Or.inl hx) (fun x hx => hx)
      (fun u hu => List.mem_cons_of_mem _ (List.mem_cons_of_mem _ hu)) ?_ ?_
    · intro data hd
      rcases List.mem_cons.1 hd with h | h
      · cases h
      · rcases List.mem_cons.1 h with h | h
        · cases h
        · exact Or.inl (hp.mem_iff.2 (List.mem_cons_of_mem _ h))
    · intro e he
      simp only [Waits] at he
      rcases List.mem_cons.1 (hq.mem_iff.1 he) with rfl | he'
      · exact Or.inr ⟨.check e, List.mem_cons_self _ _, rfl⟩
      · exact Or.inr ⟨.loop rest, List.mem_cons_of_mem _ (List.mem_cons_self _ _), he'⟩

theorem fetchInv_run (reg : Registry) (root : String) (hA : Agrees reg root)
    (sched : List Choice) (s' : State) (hr : run reg (main root) sched = some s') :
    FetchInv reg root s' := by
  have h := run_invariant reg (fun s => Inv reg root s ∧ FetchInv reg root s)
    (fun s s' hP _ hs => ⟨inv_step reg root hA s s' hP.1 hs,
      fetchInv_step reg root hA s s' hP.1 hP.2 hs⟩)
    sched (main root) s' ⟨inv_main reg root, fetchInv_main reg root⟩ hr
  exact h.2

/-- In a state with no goroutine left, a GET was issued for every reachable
name. -/
theorem finished_fetched (reg : Registry) (root : String) (s : State)
    (hv : Inv reg root s) (hi : FetchInv reg root s) (hf : Finished s) (x : String)
    (hx : Reach reg root x) : x ∈ s.fetches := by
  have hnp : ∀ d, Covered s d → d ∈ s.fetches := by
    intro d hd
    rcases hd with hd | ⟨t, ht, _⟩
    · exact hd
    · rw [hf] at ht
      simp at ht
  induction hx with
  | root => exact hnp _ hi.rootCovered
  | dep x p d hrx hfx hd _ =>
    have hk : mapGet s.list x ≠ none := by
      rcases finished_covers reg root s hv hf x hrx with h | ⟨q, hq, hnf⟩
      · exact h
      · have h1 := hfx.1
        rw [hq] at h1
        simp only [Option.some.injEq] at h1
        subst h1
        exact absurd hnf hfx.2
    exact hnp d (hi.closed x p d hk hfx hd)

/-- A state in which `wg.Wait()` returns has no goroutine left. -/
theorem finished_of_waitReturns (s : State) (hw : s.wg = s.tasks.length)
    (h : waitReturns s = true) : Finished s ∧ s.crashed = false := by
  simp only [waitReturns, Bool.and_eq_true, beq_iff_eq, Bool.not_eq_true'] at h
  refine ⟨?_, h.2⟩
  have : s.tasks.length = 0 := by omega
  exact List.length_eq_zero.1 this

/-! ## The cycle of two packages -/

/-- Invariants kept by every step are kept by `run`. -/
theorem run_invariant_step (reg : Registry) (P : State → Prop)
    (hstep : ∀ s c s', P s → step reg s c = some s' → P s') :
    ∀ (sched : List Choice) (s s' : State), P s → run reg s sched = some s' → P s'
  | [], s, s', hP, h => by
      simp only [run, Option.some.injEq] at h
      exact h ▸ hP
  | c :: cs, s, s', hP, h => by
      simp only [run] at h
      cases hs : step reg s c with
      | none => simp [hs] at h
      | some s1 =>
        simp only [hs] at h
        exact run_invariant_step reg P hstep cs s1 s' (hstep s c s1 hP hs) h

theorem count_fetch_check (x y : String) (l : List Pc) :
    (Pc.check y :: l).count (.fetch x) = l.count (.fetch x) :=
  List.count_cons_of_ne (by intro h; cases h) _

theorem count_fetch_parse (x : String) (data : Option Package) (l : List Pc) :
    (Pc.parse data :: l).count (.fetch x) = l.count (.fetch x) :=
  List.count_cons_of_ne (by intro h; cases h) _

theorem count_fetch_loop (x : String) (rest : List String) (l : List Pc) :
    (Pc.loop rest :: l).count (.fetch x) = l.count (.fetch x) :=
  List.count_cons_of_ne (by intro h; cases h) _

theorem count_fetch_ne (x y : String) (h : y ≠ x) (l : List Pc) :
    (Pc.fetch y :: l).count (.fetch x) = l.count (.fetch x) :=
  List.count_cons_of_ne (by intro h'; cases h'; exact h rfl) _

theorem onceInv_main (reg : Registry) (root : String) : OnceInv reg root (main root) := by
  intro x p _ _
  simp [main]

theorem onceInv_step (reg : Registry) (root : String) (hA : Agrees reg root)
    (s : State) (c : Choice) (s' : State) (hi : OnceInv reg root s)
    (hu : unraced s c = true) (hs : step reg s c = some s') : OnceInv reg root s' := by
  intro x p hx hf
  obtain ⟨ha, hb⟩ := hi x p hx hf
  unfold step at hs
  by_cases hcr : s.crashed = true
  · simp [hcr] at hs
  have hcr' : s.crashed = false := by simpa using hcr
  simp only [hcr', Bool.false_eq_true, if_false] at hs
  cases hp : pickAt s.tasks c.task with
  | none => simp [hp] at hs
  | some q =>
    obtain ⟨t, others⟩ := q
    have h1 := pickAt_perm _ _ _ _ hp
    simp only [hp] at hs
    have hcnt : s.tasks.count (.fetch x) = (t :: others).count (.fetch x) := h1.count_eq _
    have hpar : ∀ data, Pc.parse data ∈ s.tasks → t = .parse data ∨ Pc.parse data ∈ others := by
      intro data hd
      rcases List.mem_cons.1 (h1.mem_iff.1 hd) with h | h
      · exact Or.inl h.symm
      · exact Or.inr h
    cases t with
    | check y =>
      rw [count_fetch_check] at hcnt
      have hkeep : 1 ≤ s.fetches.count x →
          mapGet s.list x ≠ none ∨ ∃ data, Pc.parse data ∈ others ∧ reg x = some data := by
        intro h
        rcases hb h with h | ⟨data, hd, hreg⟩
        · exact Or.inl h
        · rcases hpar data hd with h | h
          · cases h
          · exact Or.inr ⟨data, h, hreg⟩
      cases hg : mapGet s.list y with
      | some v =>
        simp only [makeApiCall, hg, Option.some.injEq] at hs
        subst hs
        refine ⟨?_, ?_⟩
        · simp only [count_fetch_loop]
          omega
        · intro h
          rcases hkeep h with h | ⟨data, hd, hreg⟩
          · exact Or.inl h
          · exact Or.inr ⟨data, List.mem_cons_of_mem _ hd, hreg⟩
      | none =>
        simp only [makeApiCall, hg, Option.some.injEq] at hs
        subst hs
        refine ⟨?_, ?_⟩
        · by_cases hyx : y = x
          · subst hyx
            simp only [unraced, hp, hg, Option.isSome_none, Bool.false_or, List.all_eq_true,
              Bool.not_eq_true'] at hu
            have hno : others.count (.fetch y) = 0 := by
              rw [List.count_eq_zero]
              intro hm
              have := hu _ hm
              simp [inFlight] at this
            have hzero : s.fetches.count y = 0 := by
              by_contra hne
              rcases hkeep (by omega) with h | ⟨data, hd, hreg⟩
              · exact h hg
              · have hdp : data = some p := by
                  have h1 := hf.1
                  rw [hreg] at h1
                  simpa using h1
                subst hdp
                have := hu _ hd
                simp [inFlight, hf.2, hA _ p hx hf] at this
            simp only [List.count_cons_self, hno, hzero]
            omega
          · simp only [count_fetch_ne x y hyx]
            omega
        · intro h
          rcases hkeep h with h | ⟨data, hd, hreg⟩
          · exact Or.inl h
          · exact Or.inr ⟨data, List.mem_cons_of_mem _ hd, hreg⟩
    | fetch y =>
      have hkeep : 1 ≤ s.fetches.count x →
          mapGet s.list x ≠ none ∨ ∃ data, Pc.parse data ∈ others ∧ reg x = some data := by
        intro h
        rcases hb h with h | ⟨data, hd, hreg⟩
        · exact Or.inl h
        · rcases hpar data hd with h | h
          · cases h
          · exact Or.inr ⟨data, h, hreg⟩
      by_cases hyx : y = x
      · subst hyx
        simp only [makeApiCall, hf.1, Option.some.injEq] at hs
        subst hs
        simp only [List.count_cons_self] at hcnt
        refine ⟨?_, ?_⟩
        · simp only [List.count_append, List.count_singleton_self, count_fetch_parse]
          omega
        · intro _
          exact Or.inr ⟨some p, List.mem_cons_self _ _, hf.1⟩
      · rw [count_fetch_ne x y hyx] at hcnt
        have hfc : (s.fetches ++ [y]).count x = s.fetches.count x := by
          simp [List.count_append, List.count_singleton, hyx]
        cases hr : reg y with
        | none =>
          simp only [makeApiCall, hr, Option.some.injEq] at hs
          subst hs
          simp only [hfc]
          exact ⟨ha, hb⟩
        | some data =>
          simp only [makeApiCall, hr, Option.some.injEq] at hs
          subst hs
          simp only [hfc]
          refine ⟨?_, ?_⟩
          · simp only [count_fetch_parse]
            omega
          · intro h
            rcases hkeep h with h | ⟨data, hd, hreg⟩
            · exact Or.inl h
            · exact Or.inr ⟨data, List.mem_cons_of_mem _ hd, hreg⟩
    | parse data =>
      rw [count_fetch_parse] at hcnt
      cases hd : parseData data s.list with
      | none =>
        simp only [makeApiCall, hd, Option.some.injEq] at hs
        subst hs
        exact ⟨ha, hb⟩
      | some q =>
        obtain ⟨list, deps⟩ := q
        simp only [makeApiCall, hd, Option.some.injEq] at hs
        subst hs
        refine ⟨?_, ?_⟩
        · simp only [count_fetch_loop]
          omega
        · intro h
          cases data with
          | none => simp [parseData] at hd
          | some q =>
            by_cases hnf : q.Error = "Not found"
            · rw [parseData_notFound q s.list hnf] at hd
              simp only [Option.some.injEq, Prod.mk.injEq] at hd
              obtain ⟨rfl, rfl⟩ := hd
              rcases hb h with h | ⟨data, hd, hreg⟩
              · exact Or.inl h
              · rcases hpar data hd with h | h
                · cases h
                  have h1 := hf.1
                  rw [hreg] at h1
                  simp only [Option.some.injEq] at h1
                  subst h1
                  exact absurd hnf hf.2
                · exact Or.inr ⟨data, List.mem_cons_of_mem _ h, hreg⟩
            · rw [parseData_found q s.list hnf] at hd
              simp only [Option.some.injEq, Prod.mk.injEq] at hd
              obtain ⟨rfl, rfl⟩ := hd
              simp only [mapGet_mapSet]
              rcases hb h with h | ⟨data, hd, hreg⟩
              · left
                by_cases hxq : x = q.Name <;> simp [hxq, h]
              · rcases hpar data hd with h | h
                · cases h
                  have hname : q.Name = x := hA x q hx ⟨hreg, hnf⟩
                  left
                  simp [hname]
                · exact Or.inr ⟨data, List.mem_cons_of_mem _ h, hreg⟩
    | loop rest =>
      rw [count_fetch_loop] at hcnt
      have hkeep : 1 ≤ s.fetches.count x →
          mapGet s.list x ≠ none ∨ ∃ data, Pc.parse data ∈ others ∧ reg x = some data := by
        intro h
        rcases hb h with h | ⟨data, hd, hreg⟩
        · exact Or.inl h
        · rcases hpar data hd with h | h
          · cases h
          · exact Or.inr ⟨data, h, hreg⟩
      cases rest with
      | nil =>
        by_cases hw : s.wg = 0
        · simp only [makeApiCall] at hs
          rw [if_pos hw] at hs
          simp only [Option.some.injEq] at hs
          subst hs
          exact ⟨ha, hb⟩
        · simp only [makeApiCall] at hs
          rw [if_neg hw] at hs
          simp only [Option.some.injEq] at hs
          subst hs
          exact ⟨by simp only; omega, hkeep⟩
      | cons d ds =>
        cases hq : pickAt (d :: ds) c.pick with
        | none => simp [makeApiCall, hq] at hs
        | some q =>
          obtain ⟨e, rest⟩ := q
          simp only [makeApiCall, hq, Option.some.injEq] at hs
          subst hs
          refine ⟨?_, ?_⟩
          · simp only [count_fetch_check, count_fetch_loop]
            omega
          · intro h
            rcases hkeep h with h | ⟨data, hd, hreg⟩
            · exact Or.inl h
            · exact Or.inr ⟨data, List.mem_cons_of_mem _ (List.mem_cons_of_mem _ hd), hreg⟩

theorem onceInv_run (reg : Registry) (root : String) (hA : Agrees reg root) :
    ∀ (sched : List Choice) (s s' : State), OnceInv reg root s →
      unracedRun reg s sched = true → run reg s sched = some s' → OnceInv reg root s'
  | [], s, s', hi, _, h => by
      simp only [run, Option.some.injEq] at h
      exact h ▸ hi
  | c :: cs, s, s', hi, hu, h => by
      simp only [run] at h
      simp only [unracedRun, Bool.and_eq_true] at hu
      cases hs : step reg s c with
      | none => simp [hs] at h
      | some s1 =>
        simp only [hs] at h hu
        exact onceInv_run reg root hA cs s1 s'
          (onceInv_step reg root hA s c s1 hi hu.1 hs) hu.2 h

/-! ## Checking a registry -/

theorem wellBehaved_found (reg : Registry) (U : List String) (h : wellBehaved reg U = true)
    (x : String) (hx : x ∈ U) :
    ∃ p, reg x = some (some p) ∧
      (p.Error ≠ "Not found" → p.Name = x ∧ ∀ d ∈ externalDependencies p, d ∈ U) := by
  simp only [wellBehaved, List.all_eq_true] at h
  have hx' := h x hx
  cases hr : reg x with
  | none => simp [hr] at hx'
  | some data =>
    cases data with
    | none => simp [hr] at hx'
    | some p =>
      refine ⟨p, rfl, ?_⟩
      intro hnf
      simp only [hr, hnf, decide_False, Bool.false_or, Bool.and_eq_true, decide_eq_true_eq,
        List.all_eq_true] at hx'
      exact hx'

theorem wellBehaved_within (reg : Registry) (root : String) (U : List String)
    (h : wellBehaved reg U = true) (hroot : root ∈ U) : Within reg root U := by
  intro x hx
  induction hx with
  | root => exact hroot
  | dep x p d _ hf hd ih =>
    obtain ⟨q, hq, hq'⟩ := wellBehaved_found reg U h x ih
    have h1 := hf.1
    rw [hq] at h1
    simp only [Option.some.injEq] at h1
    subst h1
    exact (hq' hf.2).2 d hd

theorem wellBehaved_agrees (reg : Registry) (root : String) (U : List String)
    (h : wellBehaved reg U = true) (hroot : root ∈ U) : Agrees reg root := by
  intro x p hx hf
  obtain ⟨q, hq, hq'⟩ :=
    wellBehaved_found reg U h x (wellBehaved_within reg root U h hroot x hx)
  have h1 := hf.1
  rw [hq] at h1
  simp only [Option.some.injEq] at h1
  subst h1
  exact (hq' hf.2).1

/-! ## The registry that answers under another name never finishes -/

theorem aliasLive_ne (t : Pc) (h : AliasLive t) : t ≠ .loop [] := by
  rcases h with rfl | rfl | rfl | rfl <;> simp

theorem aliasInv_main : AliasInv (main "a") := by
  refine ⟨rfl, rfl, rfl, ?_, ?_⟩
  · intro t ht
    simp only [main, List.mem_singleton] at ht
    exact Or.inr (Or.inl ht)
  · exact ⟨.check "a", by simp [main], Or.inl rfl⟩

theorem aliasInv_step (s : State) (c : Choice) (s' : State) (hi : AliasInv s)
    (hs : step regAlias s c = some s') : AliasInv s' := by
  obtain ⟨list, wg, tasks, fetches, crashed⟩ := s
  obtain ⟨hal, hwg, hna, hall, tw, htw, hlive⟩ := hi
  simp only at hal hwg hna hall htw
  subst hal
  unfold step at hs
  simp only [Bool.false_eq_true, if_false] at hs
  cases hp : pickAt tasks c.task with
  | none => simp [hp] at hs
  | some q =>
    obtain ⟨t, others⟩ := q
    have h1 := pickAt_perm _ _ _ _ hp
    simp only [hp] at hs
    have hlen := h1.length_eq
    simp only [List.length_cons] at hlen
    have hothers : ∀ u ∈ others, u = .loop [] ∨ AliasLive u :=
      fun u hu => hall u (h1.mem_iff.2 (List.mem_cons_of_mem _ hu))
    rcases hall t (h1.mem_iff.2 (List.mem_cons_self _ _)) with rfl | rfl | rfl | rfl | rfl
    · have hw : wg ≠ 0 := by omega
      simp only [makeApiCall, hw, if_false, Option.some.injEq] at hs
      subst hs
      refine ⟨rfl, by simp only; omega, hna, hothers, tw, ?_, hlive⟩
      rcases List.mem_cons.1 (h1.mem_iff.1 htw) with h | h
      · exact absurd h (aliasLive_ne tw hlive)
      · exact h
    · simp only [makeApiCall, hna, Option.some.injEq] at hs
      subst hs
      refine ⟨rfl, by simp only [List.length_cons]; omega, hna, ?_,
        .fetch "a", List.mem_cons_self _ _, Or.inr (Or.inl rfl)⟩
      intro u hu
      rcases List.mem_cons.1 hu with rfl | hu
      · exact Or.inr (Or.inr (Or.inl rfl))
      · exact hothers u hu
    · simp only [makeApiCall, regAlias, Option.some.injEq] at hs
      subst hs
      refine ⟨rfl, by simp only [List.length_cons]; omega, hna, ?_,
        _, List.mem_cons_self _ _, Or.inr (Or.inr (Or.inl rfl))⟩
      intro u hu
      rcases List.mem_cons.1 hu with rfl | hu
      · exact Or.inr (Or.inr (Or.inr (Or.inl rfl)))
      · exact hothers u hu
    · have hpd : parseData (some (pkg "b" 0 ["a"])) list =
          some (mapSet list "b" 0, ["a"]) := by
        rw [parseData_found _ _ (by decide)]
        rfl
      simp only [makeApiCall, hpd, Option.some.injEq] at hs
      subst hs
      refine ⟨rfl, by simp only [List.length_cons]; omega, ?_, ?_,
        _, List.mem_cons_self _ _, Or.inr (Or.inr (Or.inr rfl))⟩
      · simp only
        rw [mapGet_mapSet_ne _ _ _ _ (by decide)]
        exact hna
      · intro u hu
        rcases List.mem_cons.1 hu with rfl | hu
        · exact Or.inr (Or.inr (Or.inr (Or.inr rfl)))
        · exact hothers u hu
    · cases hq : pickAt ["a"] c.pick with
      | none => simp [makeApiCall, hq] at hs
      | some q =>
        obtain ⟨e, rest⟩ := q
        have hq' := pickAt_perm _ _ _ _ hq
        have he : e = "a" ∧ rest = [] := by
          have hl := hq'.length_eq
          have hm := hq'.mem_iff.2 (List.mem_cons_self _ _)
          simp only [List.length_cons, List.length_nil] at hl
          simp only [List.mem_singleton] at hm
          exact ⟨hm, List.length_eq_zero.1 (by omega)⟩
        obtain ⟨rfl, rfl⟩ := he
        simp only [makeApiCall, hq, Option.some.injEq] at hs
        subst hs
        refine ⟨rfl, by simp only [List.length_cons]; omega, hna, ?_,
          _, List.mem_cons_self _ _, Or.inl rfl⟩
        intro u hu
        rcases List.mem_cons.1 hu with rfl | hu
        · exact Or.inr (Or.inl rfl)
        · rcases List.mem_cons.1 hu with rfl | hu
          · exact Or.inl rfl
          · exact hothers u hu

theorem aliasInv_run (sched : List Choice) (s' : State)
    (hr : run regAlias (main "a") sched = some s') : AliasInv s' :=
  run_invariant_step regAlias AliasInv aliasInv_step sched (main "a") s' aliasInv_main hr

/-- From every state of the traversal of `regAlias` there are schedules of
every length. -/
theorem alias_runs_forever : ∀ (n : Nat) (s : State), AliasInv s →
    ∃ sched s', sched.length = n ∧ run regAlias s sched = some s'
  | 0, s, _ => ⟨[], s, rfl, rfl⟩
  | n + 1, s, hi => by
      have hi' := hi
      obtain ⟨hal, _, _, _, tw, htw, _⟩ := hi'
      have hne : s.tasks ≠ [] := List.ne_nil_of_mem htw
      obtain ⟨s1, hs1⟩ := step_progress regAlias s hal hne
      obtain ⟨sched, s', hlen, hr⟩ := alias_runs_forever n s1 (aliasInv_step s _ s1 hi hs1)
      exact ⟨⟨0, 0⟩ :: sched, s', by simp [hlen], by simp [run, hs1, hr]⟩

/-! ## Lemmas on the report and on single steps -/

theorem wrapInt_add (x v : Int) : wrapInt (wrapInt x + v) = wrapInt (x + v) := by
  simp only [wrapInt]
  omega

theorem wrapInt_of_range (x : Int) (h1 : -2 ^ 63 ≤ x) (h2 : x < 2 ^ 63) : wrapInt x = x := by
  simp only [wrapInt]
  omega

theorem sumLoop_total : ∀ (m : List (String × Int)) (out : List Line) (t : Int),
    (sumLoop m out (wrapInt t)).2 = wrapInt (t + (m.map Prod.snd).sum)
  | [], out, t => by simp [sumLoop]
  | (k, v) :: m, out, t => by
      simp only [sumLoop, List.map_cons, List.sum_cons]
      rw [wrapInt_add, sumLoop_total m _ (t + v), Int.add_assoc]

theorem sumLoop_lines : ∀ (m : List (String × Int)) (out : List Line) (t : Int),
    (sumLoop m out t).1 = out ++ m.map (fun e => Line.entry e.1 e.2)
  | [], out, t => by simp [sumLoop]
  | (k, v) :: m, out, t => by
      simp only [sumLoop, List.map_cons]
      rw [sumLoop_lines m _ _]
      simp

theorem entryLines_map (m : List (String × Int)) :
    entryLines (m.map (fun e => Line.entry e.1 e.2)) = m.map (fun e => Line.entry e.1 e.2) := by
  induction m with
  | nil => rfl
  | cons e m ih =>
    simp only [entryLines, List.map_cons, List.filter_cons] at ih ⊢
    simp [ih]

theorem calculateTotalPkgSize_lines (order : List (String × Int)) :
    entryLines (calculateTotalPkgSize order).1 = order.map (fun e => Line.entry e.1 e.2) := by
  simp only [calculateTotalPkgSize, sumLoop_lines]
  have h := entryLines_map order
  simp only [entryLines, List.filter_append] at h ⊢
  simp [h, List.filter]

theorem calculateTotalPkgSize_total (order : List (String × Int)) :
    (calculateTotalPkgSize order).2 = wrapInt ((order.map Prod.snd).sum) := by
  have h := sumLoop_total order [.blank, .header] 0
  have h0 : wrapInt 0 = 0 := by decide
  rw [h0] at h
  simpa [calculateTotalPkgSize] using h

theorem mapSet_length {V : Type} (m : List (String × V)) (x : String) (v : V) :
    (mapSet m x v).length = if (mapGet m x).isSome then m.length else m.length + 1 := by
  induction m with
  | nil => simp [mapSet, mapGet]
  | cons e m ih =>
    obtain ⟨k, w⟩ := e
    by_cases hxk : x = k
    · simp [mapSet, mapGet, hxk]
    · simp only [mapSet, mapGet, hxk, if_false, List.length_cons, ih]
      split <;> rfl

/-- A step that lowers the counter is the `wg.Done()` of a goroutine with no
name left to start, which leaves the pool. -/
theorem step_wg_lt (reg : Registry) (s : State) (c : Choice) (s' : State)
    (hs : step reg s c = some s') (hlt : s'.wg < s.wg) :
    ∃ others, pickAt s.tasks c.task = some (.loop [], others) ∧ s'.tasks = others := by
  unfold step at hs
  by_cases hcr : s.crashed = true
  · simp [hcr] at hs
  have hcr' : s.crashed = false := by simpa using hcr
  simp only [hcr', Bool.false_eq_true, if_false] at hs
  cases hp : pickAt s.tasks c.task with
  | none => simp [hp] at hs
  | some q =>
    obtain ⟨t, others⟩ := q
    simp only [hp] at hs
    cases t with
    | check x =>
      cases hg : mapGet s.list x <;>
        (simp only [makeApiCall, hg, Option.some.injEq] at hs; subst hs; simp at hlt)
    | fetch x =>
      cases hr : reg x <;>
        (simp only [makeApiCall, hr, Option.some.injEq] at hs; subst hs; simp at hlt)
    | parse data =>
      cases hd : parseData data s.list <;>
        (simp only [makeApiCall, hd, Option.some.injEq] at hs; subst hs; simp at hlt)
    | loop rest =>
      cases rest with
      | nil =>
        by_cases hw : s.wg = 0
        · simp only [makeApiCall] at hs
          rw [if_pos hw] at hs
          simp only [Option.some.injEq] at hs
          subst hs
          simp at hlt
        · simp only [makeApiCall] at hs
          rw [if_neg hw] at hs
          simp only [Option.some.injEq] at hs
          subst hs
          exact ⟨others, rfl, rfl⟩
      | cons d ds =>
        cases hq : pickAt (d :: ds) c.pick with
        | none => simp [makeApiCall, hq] at hs
        | some q =>
          simp only [makeApiCall, hq, Option.some.injEq] at hs
          subst hs
          simp at hlt

theorem regAlias_within : Within regAlias "a" ["a"] := by
  intro x hx
  induction hx with
  | root => simp
  | dep x p d _ hf hd _ =>
    have h1 := hf.1
    simp only [regAlias, Option.some.injEq] at h1
    subst h1
    have : externalDependencies (pkg "b" 0 ["a"]) = ["a"] := by decide
    rw [this] at hd
    exact hd

theorem latestVersionSize_of_version (p : Package) (v : Version)
    (h : mapGet p.Versions p.Tags.Latest = some v) : latestVersionSize p = v.Dist.Size := by
  simp [latestVersionSize, goIndex, h]

theorem latestVersionSize_of_missing (p : Package)
    (h : mapGet p.Versions p.Tags.Latest = none) : latestVersionSize p = 0 := by
  simp [latestVersionSize, goIndex, h, Version.zero]

/-- C2 as stated fails: on the diamond, every reachable name answered under its
own name, the schedule `diamondRace ++ diamondRaceEnd` runs the traversal to
the return of `wg.Wait()` with two GETs issued for the reachable name "d". And
on `regMissingTwice`, where the missing name "X" is referenced by "A" and by
"B", two GETs are issued for "X" even with the goroutines run one after the
other, as a name answered "Not found" is never recorded. -/
theorem fetch_twice_on_diamond :
    wellBehaved regDiamond ["a", "b", "c", "d"] = true ∧
    Reach regDiamond "a" "d" ∧
    (∃ s', run regDiamond (main "a") (diamondRace ++ diamondRaceEnd) = some s' ∧
      waitReturns s' = true ∧ s'.fetches.count "d" = 2) ∧
    wellBehaved regMissingTwice ["A", "B", "X"] = true ∧
    run regMissingTwice (main "A") (List.replicate 19 ⟨0, 0⟩) =
      some ⟨[("A", 10), ("B", 20)], 0, [], ["A", "B", "X", "X"], false⟩ ∧
    unracedRun regMissingTwice (main "A") (List.replicate 19 ⟨0, 0⟩) = true := by
  refine ⟨by decide, ?_, ⟨⟨[("a", 1), ("b", 2), ("c", 3), ("d", 4)], 0, [],
    ["a", "b", "c", "d", "d"], false⟩, by decide, by decide, by decide⟩,
    by decide, by decide, by decide⟩
  have hb : Reach regDiamond "a" "b" :=
    Reach.dep "a" (pkg "a" 1 ["b", "c"]) "b" Reach.root ⟨by decide, by decide⟩ (by decide)
  exact Reach.dep "b" (pkg "b" 2 ["d"]) "d" hb ⟨by decide, by decide⟩ (by decide)

/-- C2, amended: when every found reachable record carries the requested name,
a traversal run to the return of `wg.Wait()` has issued a GET for every
reachable name and for no other name; and when no goroutine found a name
absent while another one was in flight for it (about to issue the GET for that
name, or holding a found answer still to be recorded under it), exactly one GET
was issued for every found reachable name. Goroutines holding an answer marked
"Not found" do not count as in flight. -/
theorem fetches_cover_reachable (reg : Registry) (root : String) (hagr : Agrees reg root)
    (sched : List Choice) (s' : State) (hr : run reg (main root) sched = some s')
    (hw : waitReturns s' = true) :
    (∀ x, x ∈ s'.fetches ↔ Reach reg root x) ∧
    (unracedRun reg (main root) sched = true →
      ∀ x p, Reach reg root x → Found reg x p → s'.fetches.count x = 1) := by
  have hc := counter_run reg sched (main root) s' rfl hr
  have hv := inv_run reg root hagr sched s' hr
  have hf := fetchInv_run reg root hagr sched s' hr
  have hfin := (finished_of_waitReturns s' hc hw).1
  refine ⟨?_, ?_⟩
  · intro x
    exact ⟨hf.reach x, finished_fetched reg root s' hv hf hfin x⟩
  · intro hu x p hx hfx
    have ho := onceInv_run reg root hagr sched (main root) s' (onceInv_main reg root) hu hr
    have h1 := (ho x p hx hfx).1
    have h2 : 1 ≤ s'.fetches.count x :=
      List.count_pos_iff.2 (finished_fetched reg root s' hv hf hfin x hx)
    omega

/-- C2, amended, on the diamond with the goroutines run one after the other:
each of "a", "b", "c", "d" is fetched once; and on `regBothMissing` with the
schedule `overlapMissing`, where "C" is tested while the answer "Not found" for
"B" waits to be parsed: no goroutine is in flight for "C", and the found name
"A" is fetched once. -/
theorem fetches_cover_reachable_witness :
    Agrees regDiamond "a" ∧
    run regDiamond (main "a") (List.replicate 22 ⟨0, 0⟩) =
      some ⟨[("a", 1), ("b", 2), ("d", 4), ("c", 3)], 0, [], ["a", "b", "d", "c"], false⟩ ∧
    unracedRun regDiamond (main "a") (List.replicate 22 ⟨0, 0⟩) = true ∧
    (∀ x, x ∈ ["a", "b", "d", "c"] ↔ Reach regDiamond "a" x) ∧
    (∀ x p, Reach regDiamond "a" x → Found regDiamond x p →
      ["a", "b", "d", "c"].count x = 1) ∧
    Agrees regBothMissing "A" ∧
    run regBothMissing (main "A") overlapMissing =
      some ⟨[("A", 10)], 0, [], ["A", "B", "C"], false⟩ ∧
    unracedRun regBothMissing (main "A") overlapMissing = true ∧
    (∀ x, x ∈ ["A", "B", "C"] ↔ Reach regBothMissing "A" x) ∧
    (∀ x p, Reach regBothMissing "A" x → Found regBothMissing x p →
      ["A", "B", "C"].count x = 1) := by
  have hagr : Agrees regDiamond "a" :=
    wellBehaved_agrees regDiamond "a" ["a", "b", "c", "d"] (by decide) (by decide)
  have hu : unracedRun regDiamond (main "a") (List.replicate 22 ⟨0, 0⟩) = true := by decide
  have h := fetches_cover_reachable regDiamond "a" hagr (List.replicate 22 ⟨0, 0⟩)
    ⟨[("a", 1), ("b", 2), ("d", 4), ("c", 3)], 0, [], ["a", "b", "d", "c"], false⟩
    (by decide) (by decide)
  have hagr' : Agrees regBothMissing "A" :=
    wellBehaved_agrees regBothMissing "A" ["A", "B", "C"] (by decide) (by decide)
  have hu' : unracedRun regBothMissing (main "A") overlapMissing = true := by decide
  have h' := fetches_cover_reachable regBothMissing "A" hagr' overlapMissing
    ⟨[("A", 10)], 0, [], ["A", "B", "C"], false⟩ (by decide) (by decide)
  exact ⟨hagr, by decide, hu, h.1, h.2 hu, hagr', by decide, hu', h'.1, h'.2 hu'⟩

/-- C3 as stated fails: the registry `regAlias` answers the request for "a"
with a record named "b" that depends on "a". The only name reachable from "a"
is "a", yet the traversal has schedules of every length and `wg.Wait()` returns
in no state of it. -/
theorem alias_never_returns :
    Within regAlias "a" ["a"] ∧
    (∀ n, ∃ sched s', sched.length = n ∧ run regAlias (main "a") sched = some s') ∧
    (∀ sched s', run regAlias (main "a") sched = some s' → waitReturns s' = false) := by
  refine ⟨regAlias_within, fun n => alias_runs_forever n (main "a") aliasInv_main, ?_⟩
  intro sched s' hr
  obtain ⟨_, hwg, _, _, tw, htw, _⟩ := aliasInv_run sched s' hr
  have hpos : 0 < s'.tasks.length := List.length_pos_of_mem htw
  have hne : s'.wg ≠ 0 := by omega
  simp [waitReturns, hne]

/-- C3, amended: when the names reachable from the root are finitely many and
every found reachable record carries the requested name, every schedule of the
traversal is bounded in length (by `bound` of the number of names), some
schedule runs it to the end, and a state from which no step is possible is one
where `wg.Wait()` returns or where `log.Fatalln` ended the process. The measure
that decreases is the `potential`: it weighs the goroutines of the pool by the
number of names not yet recorded. -/
theorem traversal_terminates (reg : Registry) (root : String) (U : List String)
    (hagr : Agrees reg root) (hfin : Within reg root U) :
    (∀ sched s', run reg (main root) sched = some s' →
      sched.length ≤ bound U.length U.length) ∧
    (∀ s c s', Inv reg root s → step reg s c = some s' →
      potential reg U s' < potential reg U s) ∧
    (∃ sched s', run reg (main root) sched = some s' ∧
      (s'.crashed = true ∨ waitReturns s' = true)) ∧
    (∀ sched s', run reg (main root) sched = some s' → (∀ c, step reg s' c = none) →
      s'.crashed = true ∨ waitReturns s' = true) := by
  have hdone : ∀ sched s', run reg (main root) sched = some s' → s'.tasks = [] →
      s'.crashed = true ∨ waitReturns s' = true := by
    intro sched s' hr ht
    have hw := counter_run reg sched (main root) s' rfl hr
    cases hcr : s'.crashed with
    | true => exact Or.inl rfl
    | false => exact Or.inr (by simp [waitReturns, hw, ht, hcr])
  refine ⟨?_, ?_, ?_, ?_⟩
  · intro sched s' hr
    have h := run_length_le reg root U hagr hfin sched (main root) s' (inv_main reg root) hr
    have h0 := potential_main_le reg U root
    omega
  · intro s c s' hi hs
    obtain ⟨hc, hst⟩ := step_sound reg s s' c hs
    exact potential_step reg root U hagr hfin s s' hi hc hst
  · obtain ⟨sched, s', hr, h⟩ := exists_complete reg root U hagr hfin _ (main root)
      (inv_main reg root) (Nat.le_refl _)
    refine ⟨sched, s', hr, ?_⟩
    rcases h with h | h
    · exact Or.inl h
    · exact hdone sched s' hr h
  · intro sched s' hr hstuck
    cases hcr : s'.crashed with
    | true => exact Or.inl rfl
    | false =>
      by_cases ht : s'.tasks = []
      · have := hdone sched s' hr ht
        rwa [hcr] at this
      · obtain ⟨s2, hs2⟩ := step_progress reg s' hcr ht
        rw [hstuck] at hs2
        cases hs2

/-- C3, amended, on the cycle "A" and "B": no schedule is longer than 26
steps, and one of 12 steps runs the traversal to the return of `wg.Wait()`. -/
theorem traversal_terminates_witness :
    (Agrees regCycle "A" ∧ Within regCycle "A" ["A", "B"]) ∧
    (∀ sched s', run regCycle (main "A") sched = some s' → sched.length ≤ 26) ∧
    run regCycle (main "A") (List.replicate 12 ⟨0, 0⟩) =
      some ⟨[("A", 10), ("B", 20)], 0, [], ["A", "B"], false⟩ := by
  have hwb : wellBehaved regCycle ["A", "B"] = true := by decide
  have hagr := wellBehaved_agrees regCycle "A" _ hwb (by decide)
  have hfin := wellBehaved_within regCycle "A" _ hwb (by decide)
  exact ⟨⟨hagr, hfin⟩, (traversal_terminates regCycle "A" ["A", "B"] hagr hfin).1, by decide⟩

/-- C6 as stated fails: the traversal of `regHuge` leaves a map with two
entries of 2^62 bytes; their sum is 2^63, and the total computed by
`calculateTotalPkgSize` in Go's 64-bit `int` is -2^63. -/
theorem total_wraps_around :
    run regHuge (main "a") (List.replicate 9 ⟨0, 0⟩) =
      some ⟨[("a", 2 ^ 62), ("b", 2 ^ 62)], 0, [], ["a", "b"], false⟩ ∧
    (([("a", 2 ^ 62), ("b", 2 ^ 62)] : PkgMap).map Prod.snd).sum = 2 ^ 63 ∧
    (calculateTotalPkgSize [("a", 2 ^ 62), ("b", 2 ^ 62)]).2 = -2 ^ 63 := by
  decide

/-- C6, amended: for the entries of the map in whatever order `range` yields
them, the total computed by `calculateTotalPkgSize` is the sum of the sizes
reduced to Go's 64-bit `int` (so it is the sum itself whenever the sum lies in
`[-2^63, 2^63)`), and one entry line is printed per entry; for the empty map
the total is 0 and no entry line is printed. -/
theorem total_is_wrapped_sum (list order : PkgMap) (h : order.Perm list) :
    (calculateTotalPkgSize order).2 = wrapInt ((list.map Prod.snd).sum) ∧
    (-2 ^ 63 ≤ (list.map Prod.snd).sum → (list.map Prod.snd).sum < 2 ^ 63 →
      (calculateTotalPkgSize order).2 = (list.map Prod.snd).sum) ∧
    (entryLines (calculateTotalPkgSize order).1).length = list.length ∧
    calculateTotalPkgSize [] = ([.blank, .header, .blank, .total 0, .blank], 0) := by
  have hsum : (order.map Prod.snd).sum = (list.map Prod.snd).sum := (h.map Prod.snd).sum_eq
  have ht : (calculateTotalPkgSize order).2 = wrapInt ((list.map Prod.snd).sum) := by
    rw [calculateTotalPkgSize_total, hsum]
  refine ⟨ht, ?_, ?_, by decide⟩
  · intro h1 h2
    rw [ht, wrapInt_of_range _ h1 h2]
  · rw [calculateTotalPkgSize_lines, List.length_map, h.length_eq]

/-- C6, amended, on the scenario of the spec: the map of "app" and "lib", read
in the other order, gives the total 6144 and two entry lines. -/
theorem total_is_wrapped_sum_witness :
    ([("lib", 4096), ("app", 2048)] : PkgMap).Perm [("app", 2048), ("lib", 4096)] ∧
    (calculateTotalPkgSize [("lib", 4096), ("app", 2048)]).2 = 6144 ∧
    (entryLines (calculateTotalPkgSize [("lib", 4096), ("app", 2048)]).1).length = 2 := by
  have hp : ([("lib", 4096), ("app", 2048)] : PkgMap).Perm [("app", 2048), ("lib", 4096)] :=
    List.Perm.swap _ _ _
  have h := total_is_wrapped_sum _ _ hp
  exact ⟨hp, h.2.1 (by decide) (by decide), h.2.2.1⟩

/-- C7 as stated fails: the body `{"error":"Not found"}` is parsed without
error and has no latest tag and no versions, and `parseData` returns at line
122 without recording it: the map is left as it was, with no entry of size 0
under the (empty) name of the response. -/
theorem notFound_body_not_recorded :
    mapGet notFound.Versions notFound.Tags.Latest = none ∧
    parseData (some notFound) [("w", 5)] = some ([("w", 5)], []) ∧
    mapGet [("w", 5)] notFound.Name = none ∧
    parseData (some notFound) [("w", 5)] ≠
      some (mapSet [("w", 5)] notFound.Name 0, []) := by
  decide

/-- C7, amended: when the response is not marked "Not found" and its latest tag
is not a key of its versions, `parseData` does not fault: it records the
package with size 0 and has no name to start a goroutine for. -/
theorem latest_missing_is_zero_record (p : Package) (list : PkgMap)
    (hnf : p.Error ≠ "Not found") (hl : mapGet p.Versions p.Tags.Latest = none) :
    parseData (some p) list = some (mapSet list p.Name 0, []) ∧
    ∀ (reg : Registry) (s : State) (others : List Pc) (pick : Nat),
      makeApiCall reg s (.parse (some p)) others pick =
        some { s with list := mapSet s.list p.Name 0, tasks := .loop [] :: others } := by
  have hsize : latestVersionSize p = 0 := by
    simp [latestVersionSize, goIndex, hl, Version.zero]
  have hdeps : externalDependencies p = [] := by
    simp [externalDependencies, goIndex, hl, Version.zero, mapKeys]
  have hpd : ∀ l : PkgMap, parseData (some p) l = some (mapSet l p.Name 0, []) := by
    intro l
    rw [parseData_found p l hnf, hsize, hdeps]
  refine ⟨hpd list, ?_⟩
  intro reg s others pick
  simp [makeApiCall, hpd]

/-- C7, amended, on a response whose latest tag "2.0.0" names no version, and
on one with no latest tag and no versions. -/
theorem latest_missing_is_zero_record_witness :
    parseData (some ⟨"x", ⟨"2.0.0"⟩, [("1.0.0", ⟨[("y", "*")], ⟨7⟩⟩)], ""⟩) [("w", 5)] =
      some ([("w", 5), ("x", 0)], []) ∧
    parseData (some ⟨"x", ⟨""⟩, [], ""⟩) [] = some ([("x", 0)], []) :=
  ⟨(latest_missing_is_zero_record ⟨"x", ⟨"2.0.0"⟩, [("1.0.0", ⟨[("y", "*")], ⟨7⟩⟩)], ""⟩
      [("w", 5)] (by decide) (by decide)).1,
    (latest_missing_is_zero_record ⟨"x", ⟨""⟩, [], ""⟩ [] (by decide) (by decide)).1⟩

/-- C8 as stated fails: after the schedule `diamondRace` on the diamond two
GETs have been issued for "d" while the map does not hold "d", and the test of
line 84 leaves the map as it is. -/
theorem check_claims_nothing :
    (run regDiamond (main "a") diamondRace).map
        (fun s => (s.fetches, s.list, mapGet s.list "d")) =
      some (["a", "b", "c", "d", "d"], [("a", 1), ("b", 2), ("c", 3)], none) ∧
    makeApiCall regDiamond ⟨[("a", 1), ("b", 2), ("c", 3)], 5, [], ["a", "b", "c"], false⟩
        (.check "d") [] 0 =
      some ⟨[("a", 1), ("b", 2), ("c", 3)], 5, [.fetch "d"], ["a", "b", "c"], false⟩ := by
  decide

/-- C8, amended: the test at the start of `makeApiCall` only reads the map
under the lock: it changes neither the map nor the log of GETs, and sends the
goroutine to its return when the name is recorded and to the GET when it is
not; so two goroutines that test the same name while it is not recorded both go
on to the GET. A name is recorded only by `parseData`, after its GET: when
every found reachable record carries the requested name, the map holds in every
state of the traversal only names for which a GET has been issued. -/
theorem admission_check_reads_only (reg : Registry) (root : String) (hagr : Agrees reg root)
    (sched : List Choice) (s' : State) (hr : run reg (main root) sched = some s') :
    (∀ (x : String) (others : List Pc) (pick : Nat),
      makeApiCall reg s' (.check x) others pick =
        some { s' with tasks :=
          (match mapGet s'.list x with
            | some _ => Pc.loop []
            | none => Pc.fetch x) :: others }) ∧
    (∀ (x : String) (others : List Pc) (pick : Nat), mapGet s'.list x = none →
      makeApiCall reg s' (.check x) (.check x :: others) pick =
        some { s' with tasks := .fetch x :: .check x :: others } ∧
      makeApiCall reg { s' with tasks := .fetch x :: .check x :: others } (.check x)
          (.fetch x :: others) pick =
        some { s' with tasks := .fetch x :: .fetch x :: others }) ∧
    (∀ k, mapGet s'.list k ≠ none → k ∈ s'.fetches) := by
  refine ⟨?_, ?_, (fetchInv_run reg root hagr sched s' hr).recorded⟩
  · intro x others pick
    cases hg : mapGet s'.list x <;> simp [makeApiCall, hg]
  · intro x others pick hg
    simp [makeApiCall, hg]

/-- C8, amended, on the diamond once "a" is recorded: the test of "a" sends the
goroutine to its return, the test of "d" sends it to the GET. -/
theorem admission_check_reads_only_witness :
    Agrees regDiamond "a" ∧
    (run regDiamond (main "a") (List.replicate 3 ⟨0, 0⟩) =
      some ⟨[("a", 1)], 1, [.loop ["b", "c"]], ["a"], false⟩) ∧
    makeApiCall regDiamond ⟨[("a", 1)], 1, [.loop ["b", "c"]], ["a"], false⟩
        (.check "a") [] 0 =
      some ⟨[("a", 1)], 1, [.loop []], ["a"], false⟩ ∧
    makeApiCall regDiamond ⟨[("a", 1)], 1, [.loop ["b", "c"]], ["a"], false⟩
        (.check "d") [] 0 =
      some ⟨[("a", 1)], 1, [.fetch "d"], ["a"], false⟩ := by
  have hagr : Agrees regDiamond "a" :=
    wellBehaved_agrees regDiamond "a" ["a", "b", "c", "d"] (by decide) (by decide)
  have h := admission_check_reads_only regDiamond "a" hagr (List.replicate 3 ⟨0, 0⟩)
    ⟨[("a", 1)], 1, [.loop ["b", "c"]], ["a"], false⟩ (by decide)
  exact ⟨hagr, by decide, h.1 "a" [] 0, h.1 "d" [] 0⟩

/-- C9: in every state of the traversal the counter of `wg` is the number of
goroutines started and not yet finished, so `wg.Wait()` does not return while
one is left; and the counter is only ever lowered by a goroutine that has no
name left to start a goroutine for, which then leaves the pool. -/
theorem counter_matches_tasks (reg : Registry) (root : String) (sched : List Choice)
    (s' : State) (hr : run reg (main root) sched = some s') :
    s'.wg = s'.tasks.length ∧ (s'.tasks ≠ [] → waitReturns s' = false) ∧
    (∀ c s'', step reg s' c = some s'' → s''.wg < s'.wg →
      ∃ others, pickAt s'.tasks c.task = some (.loop [], others) ∧ s''.tasks = others) := by
  have hw := counter_run reg sched (main root) s' rfl hr
  refine ⟨hw, ?_, fun c s'' hs hlt => step_wg_lt reg s' c s'' hs hlt⟩
  intro hne
  have hpos : 0 < s'.tasks.length := List.length_pos.2 hne
  have : s'.wg ≠ 0 := by omega
  simp [waitReturns, this]

/-- C9 on the scenario of the spec, after "app" has started the goroutine for
"lib": the counter is 2 and two goroutines are in the pool. -/
theorem counter_matches_tasks_witness :
    run regAppLib (main "app") (List.replicate 4 ⟨0, 0⟩) =
      some ⟨[("app", 2048)], 2, [.check "lib", .loop []], ["app"], false⟩ ∧
    waitReturns ⟨[("app", 2048)], 2, [.check "lib", .loop []], ["app"], false⟩ = false := by
  have h := counter_matches_tasks regAppLib "app" (List.replicate 4 ⟨0, 0⟩)
    ⟨[("app", 2048)], 2, [.check "lib", .loop []], ["app"], false⟩ (by decide)
  exact ⟨by decide, h.2.1 (by decide)⟩

/-- C10: for a response that is not marked "Not found", `parseData` writes one
entry, under the name field of the response (the empty string when that is
empty), whatever name the goroutine requested. The value written is the
`unpackedSize` (`Dist.Size`) of the version that the versions map holds under
the latest tag, and 0 when it holds none. Every other key of the map is left as
it was, so a requested name is in the map afterwards only if it is the name of
the response or was in the map before. -/
theorem parseData_frame (p : Package) (list : PkgMap) (hnf : p.Error ≠ "Not found") :
    parseData (some p) list =
      some (mapSet list p.Name (latestVersionSize p), externalDependencies p) ∧
    (∀ (reg : Registry) (s : State) (others : List Pc) (pick : Nat),
      makeApiCall reg s (.parse (some p)) others pick =
        some { s with list := mapSet s.list p.Name (latestVersionSize p),
                      tasks := .loop (externalDependencies p) :: others }) ∧
    mapGet (mapSet list p.Name (latestVersionSize p)) p.Name = some (latestVersionSize p) ∧
    (∀ v, mapGet p.Versions p.Tags.Latest = some v →
      parseData (some p) list = some (mapSet list p.Name v.Dist.Size, externalDependencies p) ∧
      mapGet (mapSet list p.Name (latestVersionSize p)) p.Name = some v.Dist.Size) ∧
    (mapGet p.Versions p.Tags.Latest = none →
      mapGet (mapSet list p.Name (latestVersionSize p)) p.Name = some 0) ∧
    (p.Name = "" →
      mapGet (mapSet list p.Name (latestVersionSize p)) "" = some (latestVersionSize p)) ∧
    (∀ k, k ≠ p.Name →
      mapGet (mapSet list p.Name (latestVersionSize p)) k = mapGet list k) ∧
    (mapSet list p.Name (latestVersionSize p)).length =
      (if (mapGet list p.Name).isSome then list.length else list.length + 1) ∧
    (∀ requested, mapGet (mapSet list p.Name (latestVersionSize p)) requested ≠ none →
      requested = p.Name ∨ mapGet list requested ≠ none) := by
  refine ⟨parseData_found p list hnf, ?_, mapGet_mapSet_self _ _ _, ?_, ?_, ?_,
    fun k hk => mapGet_mapSet_ne _ _ _ k hk, mapSet_length _ _ _, ?_⟩
  · intro reg s others pick
    simp [makeApiCall, parseData_found p s.list hnf]
  · intro v hv
    have hsz := latestVersionSize_of_version p v hv
    refine ⟨?_, ?_⟩
    · rw [parseData_found p list hnf, hsz]
    · rw [hsz]
      exact mapGet_mapSet_self _ _ _
  · intro hl
    rw [latestVersionSize_of_missing p hl]
    exact mapGet_mapSet_self _ _ _
  · intro h
    rw [← h]
    exact mapGet_mapSet_self _ _ _
  · intro requested h
    by_cases hr : requested = p.Name
    · exact Or.inl hr
    · rw [mapGet_mapSet_ne _ _ _ _ hr] at h
      exact Or.inr h

/-- C10 on a response named "b" to a request for "a", with versions "1.0.0"
(3 bytes) and "2.0.0" (7 bytes, latest): the entry is written under "b" with
the 7 bytes of the latest version, the entry of "w" is left as it was, and "a"
is not in the map afterwards. -/
theorem parseData_frame_witness :
    pkgTwoVersions.Error ≠ "Not found" ∧
    parseData (some pkgTwoVersions) [("w", 5)] = some ([("w", 5), ("b", 7)], ["a"]) ∧
    mapGet (mapSet ([("w", 5)] : PkgMap) "b" (latestVersionSize pkgTwoVersions)) "b" =
      some 7 ∧
    mapGet (mapSet ([("w", 5)] : PkgMap) "b" (latestVersionSize pkgTwoVersions)) "w" =
      some 5 ∧
    mapGet (mapSet ([("w", 5)] : PkgMap) "b" (latestVersionSize pkgTwoVersions)) "a" =
      none := by
  have hnf : pkgTwoVersions.Error ≠ "Not found" := by decide
  have h := parseData_frame pkgTwoVersions [("w", 5)] hnf
  exact ⟨hnf, (h.2.2.2.1 ⟨[("a", "*")], ⟨7⟩⟩ (by decide)).1,
    (h.2.2.2.1 ⟨[("a", "*")], ⟨7⟩⟩ (by decide)).2, by decide, by decide⟩

end PackageHell
